import Mathlib

/- Batteries marks the rational operations irreducible, which blocks kernel
evaluation of concrete runs; restore the default reducibility for them. -/
attribute [local semireducible] Rat.add Rat.mul Rat.sub Rat.inv

/-!
Verification of the graph model and shortest-path engine of
`src/NetworkGraphVisualizer.js`.

The development shallowly embeds the algorithmic core of the component:

* the JavaScript number values that actually flow through the core are
  modelled by `JNum`: an exact rational (`JNum.num`), positive infinity
  (`JNum.inf`, the `Infinity` used to initialise tentative distances), and
  `JNum.nan`.  Floating-point rounding, negative infinity and signed zero
  are outside the model; no claim depends on them.
* the JavaScript objects `distances` and `previous` are maps keyed by
  strings; a missing key reads as `undefined`.  They are modelled as total
  functions into `Option`, with `none` for a missing key.  For `previous`
  the value `null` (stored by the initialisation) and `undefined` (missing
  key) are both falsy and are read only by the truthiness test of the
  reconstruction loop, so both are modelled as `none`.
* `vis-data` DataSets preserve insertion order and `get(id)` returns the
  item with that id or `null`; they are modelled as lists plus `find?`.
* the `while` loops of `dijkstra` (the frontier loop and the path
  reconstruction walk) are modelled with explicit fuel; the fuel bounds
  used by `dijkstra` are proved sufficient for the graphs the claims
  quantify over (valid snapshots with non-negative weights), so on those
  inputs the embedding computes exactly what the JavaScript computes.
* `edge.label` (the string `weight.toString()` attached for display) and
  `node.label` rendering are presentation-only; the edge label is never
  read by the core and is omitted from `Edge`.
-/

/-- A JavaScript number as used by the core: an exact rational, `Infinity`,
or `NaN`. -/
inductive JNum where
  | num (q : ℚ)
  | inf
  | nan
deriving DecidableEq

/-- JS truthiness of a number: `0` and `NaN` are falsy, everything else
(including negative numbers and `Infinity`) is truthy. -/
def jsTruthy : JNum → Bool
  | .num q => decide (q ≠ 0)
  | .inf => true
  | .nan => false

/-- `distances[node] + edge.weight` where the left operand is an object read
(`undefined` when the key is missing; `undefined + x` is `NaN`). -/
def jsAdd : Option JNum → JNum → JNum
  | some (.num a), .num b => .num (a + b)
  | some (.num _), .inf => .inf
  | some .inf, .num _ => .inf
  | some .inf, .inf => .inf
  | some .nan, _ => .nan
  | some (.num _), .nan => .nan
  | some .inf, .nan => .nan
  | none, _ => .nan

/-- `distance < distances[neighbor]` where the right operand is an object
read.  Comparisons against `NaN` and `undefined` are false in JS. -/
def jsLt : JNum → Option JNum → Bool
  | .num a, some (.num b) => decide (a < b)
  | .num _, some .inf => true
  | .inf, some _ => false
  | .nan, some _ => false
  | _, none => false
  | _, some .nan => false

/-- A DataSet node object `{ id, label }`. -/
structure Node where
  id : String
  label : String
deriving DecidableEq

/-- A DataSet edge object `{ from, to, weight }`.  `addEdge` stores
`parseFloat(weight)`, which is the identity on numbers, so the stored
weight is the input weight.  The display-only `label` field is omitted. -/
structure Edge where
  «from» : String
  «to» : String
  weight : JNum
deriving DecidableEq

/-- The snapshot handed to `dijkstra`: `{ nodes: nodes.get(), edges:
edges.get() }`. -/
structure Graph where
  nodes : List Node
  edges : List Edge
deriving DecidableEq

def nodeIds (g : Graph) : List String := g.nodes.map Node.id

/-- An entry `{ node, distance }` of the frontier array `pq`. -/
structure PQEntry where
  node : String
  distance : JNum
deriving DecidableEq

/-- The mutable state of the main loop of `dijkstra`. -/
structure LoopState where
  distances : String → Option JNum
  previous : String → Option String
  pq : List PQEntry

/-- Pointwise update of an object modelled as a function. -/
def updateFn {α : Type} (f : String → α) (k : String) (v : α) : String → α :=
  fun x => if x = k then v else f x

/-- Sort key of a frontier entry.  The invariants below prove every key that
ever enters `pq` is a finite `JNum.num`; on those the comparator
`(a, b) => a.distance - b.distance` orders by the rational value.  The
non-finite cases never occur and are mapped to `0` to make the order total. -/
def keyVal : JNum → ℚ
  | .num q => q
  | .inf => 0
  | .nan => 0

def leEntry (a b : PQEntry) : Bool := decide (keyVal a.distance ≤ keyVal b.distance)

/-- Stable insertion used by `sortPq`: an element is placed before every
element it compares `≤` to, so earlier elements stay before later elements
with an equal key. -/
def insertEntry (e : PQEntry) : List PQEntry → List PQEntry
  | [] => [e]
  | x :: xs => if leEntry e x then e :: x :: xs else x :: insertEntry e xs

/-- `pq.sort((a, b) => a.distance - b.distance)`.  JavaScript's `sort` is a
stable sort, and a stable sort's output is uniquely determined by the key
order, so this stable insertion sort computes exactly the array the
JavaScript produces. -/
def sortPq : List PQEntry → List PQEntry
  | [] => []
  | e :: xs => insertEntry e (sortPq xs)

/-- The body of `graph.edges.forEach(edge => ...)`: relax one edge incident
to the extracted `node`. -/
def relaxEdge (node : String) (st : LoopState) (edge : Edge) : LoopState :=
  if edge.«from» = node ∨ edge.«to» = node then
    let neighbor := if edge.«from» = node then edge.«to» else edge.«from»
    let distance := jsAdd (st.distances node) edge.weight
    if jsLt distance (st.distances neighbor) then
      { distances := updateFn st.distances neighbor (some distance),
        previous := updateFn st.previous neighbor (some node),
        pq := st.pq ++ [⟨neighbor, distance⟩] }
    else st
  else st

/-- The whole `forEach` over the edge list. -/
def relaxAll (edges : List Edge) (node : String) (st : LoopState) : LoopState :=
  edges.foldl (relaxEdge node) st

/-- The `while (pq.length)` loop: stably sort `pq` by distance, shift the
head, break if it is the target, otherwise relax its incident edges. -/
def dijkstraLoop (g : Graph) (endNode : String) : Nat → LoopState → LoopState
  | 0, st => st
  | fuel + 1, st =>
    match sortPq st.pq with
    | [] => st
    | e :: rest =>
      if e.node = endNode then { st with pq := rest }
      else dijkstraLoop g endNode fuel (relaxAll g.edges e.node { st with pq := rest })

/-- Initial state: every known node's distance is `Infinity` and its
predecessor `null`; then `distances[startNode] = 0` (also when `startNode`
is not a node of the graph) and `pq = [{ node: startNode, distance: 0 }]`. -/
def dijkstraInit (g : Graph) (startNode : String) : LoopState :=
  { distances := fun id =>
      if id = startNode then some (.num 0)
      else if id ∈ nodeIds g then some .inf else none,
    previous := fun _ => none,
    pq := [⟨startNode, .num 0⟩] }

/-- The reconstruction walk `while (current) { path.unshift(current);
current = previous[current]; }`.  An empty string is falsy, so the walk
also stops on it. -/
def walkPath (previous : String → Option String) : Nat → String → List String
  | 0, _ => []
  | fuel + 1, current =>
    if current = "" then []
    else
      match previous current with
      | none => [current]
      | some p => walkPath previous fuel p ++ [current]

/-- `{ path, distance: distances[endNode] }`. -/
structure DijkstraResult where
  path : List String
  distance : Option JNum
deriving DecidableEq

/-- Fuel for the main loop; proved sufficient for valid snapshots with
non-negative weights (`dijkstraLoop_exits`). -/
def loopFuel (g : Graph) : Nat := (g.nodes.length + 1) * (g.edges.length + 1) + 1

/-- Fuel for the reconstruction walk; proved sufficient alongside the main
invariant. -/
def walkFuel (g : Graph) : Nat := g.nodes.length + 3

/-- The `dijkstra` function of the source, lines 19-61. -/
def dijkstra (g : Graph) (startNode endNode : String) : DijkstraResult :=
  let stF := dijkstraLoop g endNode (loopFuel g) (dijkstraInit g startNode)
  { path := walkPath stF.previous (walkFuel g) endNode,
    distance := stF.distances endNode }

/-! ## The store (GraphStore): `nodes`/`edges` DataSets and the mutations -/

structure GraphState where
  nodes : List Node
  edges : List Edge
deriving DecidableEq

def emptyState : GraphState := ⟨[], []⟩

/-- `DataSet.get(id)`: the item with that id, or `null`. -/
def dsGet (ns : List Node) (id : String) : Option Node :=
  ns.find? (fun n => n.id = id)

/-- `addNode` (source lines 105-110): insert `{ id: newNode, label: newNode }`
when `newNode` is truthy (non-empty) and no node with that id exists. -/
def addNode (st : GraphState) (newNode : String) : GraphState :=
  if newNode ≠ "" ∧ (dsGet st.nodes newNode).isNone then
    { st with nodes := st.nodes ++ [{ id := newNode, label := newNode }] }
  else st

/-- `addEdge` (source lines 113-126): insert when `from`, `to` and `weight`
are all truthy and both endpoints exist.  The stored weight is
`parseFloat(weight)`, the identity on number inputs. -/
def addEdge (st : GraphState) (efrom eto : String) (weight : JNum) : GraphState :=
  if efrom ≠ "" ∧ eto ≠ "" ∧ jsTruthy weight ∧
      (dsGet st.nodes efrom).isSome ∧ (dsGet st.nodes eto).isSome then
    { st with edges := st.edges ++ [{ «from» := efrom, «to» := eto, weight := weight }] }
  else st

/-- `clearNetwork` (source lines 145-149): `nodes.clear(); edges.clear()`. -/
def clearNetwork (_st : GraphState) : GraphState := ⟨[], []⟩

/-- The read-only snapshot handed to `dijkstra` by `findShortestPath`. -/
def snapshot (st : GraphState) : Graph := ⟨st.nodes, st.edges⟩

/-- `findShortestPath` (source lines 129-142): runs `dijkstra` only when
both ids are truthy; otherwise no query happens. -/
def findShortestPath (st : GraphState) (efrom eto : String) : Option DijkstraResult :=
  if efrom ≠ "" ∧ eto ≠ "" then some (dijkstra (snapshot st) efrom eto) else none

/-- The mutations an external caller can issue against the store. -/
inductive Op where
  | addNode (id : String)
  | addEdge (efrom eto : String) (weight : JNum)
  | clear
deriving DecidableEq

def applyOp (st : GraphState) : Op → GraphState
  | .addNode id => addNode st id
  | .addEdge f t w => addEdge st f t w
  | .clear => clearNetwork st

/-- The store state after a sequence of mutations from the initial empty
state. -/
def runOps (ops : List Op) : GraphState := ops.foldl applyOp emptyState

/-! ## Specification vocabulary: undirected walks and their weights -/

/-- Some edge of the snapshot joins `a` and `b` (in either orientation) with
finite weight `w`. -/
def EdgeBetween (g : Graph) (a b : String) (w : ℚ) : Prop :=
  ∃ e ∈ g.edges, e.weight = .num w ∧
    ((e.«from» = a ∧ e.«to» = b) ∨ (e.«from» = b ∧ e.«to» = a))

/-- `IsWalk g s y c`: there is an undirected walk from `s` to `y` of total
weight `c` in the snapshot `g`. -/
inductive IsWalk (g : Graph) (s : String) : String → ℚ → Prop where
  | nil : IsWalk g s s 0
  | snoc {b y : String} {c w : ℚ} :
      IsWalk g s b c → EdgeBetween g b y w → IsWalk g s y (c + w)

/-- `ChainW g l c`: the node list `l` is a walk through `g` whose edge
weights sum to `c` (joining each consecutive pair by an edge). -/
inductive ChainW (g : Graph) : List String → ℚ → Prop where
  | single (a : String) : ChainW g [a] 0
  | cons {a b : String} {l : List String} {w c : ℚ} :
      EdgeBetween g a b w → ChainW g (b :: l) c → ChainW g (a :: b :: l) (w + c)

/-- Case normalization as performed by the UI layer (`toUpperCase` on the
ASCII ids this application uses), character by character. -/
def upperStr (s : String) : String := ⟨s.data.map Char.toUpper⟩

/-- A snapshot as produced by the store: node ids are non-empty and
duplicate-free, and every edge endpoint is a node. -/
def ValidGraph (g : Graph) : Prop :=
  (∀ n ∈ g.nodes, n.id ≠ "") ∧ (nodeIds g).Nodup ∧
    (∀ e ∈ g.edges, e.«from» ∈ nodeIds g ∧ e.«to» ∈ nodeIds g)

instance (g : Graph) : Decidable (ValidGraph g) := by
  unfold ValidGraph; infer_instance

/-- Weight check used by the non-negative-weights hypothesis (decidable form). -/
def jnumIsNonneg : JNum → Bool
  | .num q => decide (0 ≤ q)
  | .inf => false
  | .nan => false

/-- The spec's ambient assumption (section 1, non-goals): every edge weight
is a (finite) non-negative number. -/
def NonnegWeights (g : Graph) : Prop := ∀ e ∈ g.edges, jnumIsNonneg e.weight = true

instance (g : Graph) : Decidable (NonnegWeights g) := by
  unfold NonnegWeights; infer_instance

/-- The reported cost is "unreachable": the code reports `Infinity` when the
target is a known node whose distance was never relaxed, and `undefined`
when the target id is not a key of `distances`; both are the non-finite
outcome the spec calls Unreachable. -/
def Unreachable (d : Option JNum) : Prop := d = some .inf ∨ d = none

instance (d : Option JNum) : Decidable (Unreachable d) := by
  unfold Unreachable; infer_instance

/-- Reachability: some undirected walk joins `s` to `t`. -/
def Reachable (g : Graph) (s t : String) : Prop := ∃ c, IsWalk g s t c

/-- The three-node example of the spec: `A-B` weight 1, `B-C` weight 1,
`A-C` weight 5. -/
def exampleGraph : Graph :=
  { nodes := [⟨"A", "A"⟩, ⟨"B", "B"⟩, ⟨"C", "C"⟩],
    edges := [⟨"A", "B", .num 1⟩, ⟨"B", "C", .num 1⟩, ⟨"A", "C", .num 5⟩] }

/-- A two-node, zero-edge store state used by concrete instances. -/
def twoNodeState : GraphState := ⟨[⟨"A", "A"⟩, ⟨"B", "B"⟩], []⟩

/-- The store state after a sequence of `addNode` calls. -/
def runAddNodes (ids : List String) : GraphState := ids.foldl addNode emptyState

/-! ## Proof infrastructure for the main loop invariant -/

/-- The predecessor chain of `y`: the node list produced by repeatedly
following `previous` from `y` (in source-to-target order, `y` last). -/
inductive PrevChainL (p : String → Option String) : String → List String → Prop where
  | base {y : String} : p y = none → PrevChainL p y [y]
  | step {y v : String} {l : List String} :
      p y = some v → PrevChainL p v l → PrevChainL p y (l ++ [y])

/-- Every edge of `es` incident to `u` has been relaxed in `st`: the
neighbour's tentative distance is at most `u`'s distance plus the edge
weight (both finite). -/
def RelaxedFor (g : Graph) (st : LoopState) (u : String) (es : List Edge) : Prop :=
  ∀ e ∈ es, ∀ y : String,
    ((e.«from» = u ∧ e.«to» = y) ∨ (e.«to» = u ∧ e.«from» = y)) →
    ∀ w : ℚ, e.weight = .num w →
      ∃ qu qy : ℚ, st.distances u = some (.num qu) ∧
        st.distances y = some (.num qy) ∧ qy ≤ qu + w

/-- The pq-and-ghost-set invariant of the main loop.  `S` is the (ghost)
list of nodes extracted so far, in extraction order. -/
structure DCore (g : Graph) (s : String) (st : LoopState) (S : List String) : Prop where
  src_dist : st.distances s = some (.num 0)
  no_nan : ∀ y : String, st.distances y ≠ some .nan
  dist_def : ∀ y ∈ nodeIds g, (st.distances y).isSome = true
  ub : ∀ (y : String) (q : ℚ), st.distances y = some (.num q) → IsWalk g s y q
  fin_prev : ∀ (y : String) (q : ℚ),
    st.distances y = some (.num q) → y ≠ s → st.previous y ≠ none
  pq_key : ∀ p ∈ st.pq, ∃ k q : ℚ, p.distance = .num k ∧
    st.distances p.node = some (.num q) ∧ q ≤ k
  pq_node : ∀ p ∈ st.pq, p.node = s ∨ p.node ∈ nodeIds g
  pq_mem : ∀ (y : String) (q : ℚ), y ∉ S → st.distances y = some (.num q) →
    (⟨y, .num q⟩ : PQEntry) ∈ st.pq
  settled : ∀ u ∈ S, ∃ q : ℚ, st.distances u = some (.num q) ∧
    ∀ c : ℚ, IsWalk g s u c → q ≤ c
  prev_spec : ∀ y v : String, st.previous y = some v → v ∈ S ∧
    ∃ (qv w qy : ℚ), st.distances v = some (.num qv) ∧
      st.distances y = some (.num qy) ∧ EdgeBetween g v y w ∧ qy = qv + w
  prev_idx : ∀ y v : String, st.previous y = some v → y ∈ S →
    S.indexOf v < S.indexOf y
  s_nodup : S.Nodup
  s_sub : ∀ u ∈ S, u = s ∨ u ∈ nodeIds g

/-- The full invariant: the core plus "every settled node has all its
incident edges relaxed". -/
def DInv (g : Graph) (s : String) (st : LoopState) (S : List String) : Prop :=
  DCore g s st S ∧ ∀ u ∈ S, RelaxedFor g st u g.edges

/-- Loop measure: pending frontier entries plus budget for nodes not yet
settled.  Strictly decreases at every iteration. -/
def muMeasure (g : Graph) (st : LoopState) (S : List String) : Nat :=
  st.pq.length + (g.nodes.length + 1 - S.length) * (g.edges.length + 1)

/-- Invariant carried through the `forEach` relaxation fold for the freshly
extracted node `u`: the core invariant, full relaxedness of the previously
settled nodes, and relaxedness of `u` for the edges processed so far. -/
def FoldInv (g : Graph) (s u : String) (S : List String) (st : LoopState)
    (processed : List Edge) : Prop :=
  DCore g s st S ∧ (∀ u' ∈ S, u' ≠ u → RelaxedFor g st u' g.edges) ∧
    RelaxedFor g st u processed

/-- Rank used for the well-founded construction of predecessor chains:
settled nodes are ranked by extraction order, unsettled ones above all. -/
def chainRank (S : List String) (y : String) : Nat :=
  if y ∈ S then S.indexOf y + 1 else S.length + 1

/-! ## Sanity examples on concrete graphs -/

example : dijkstra exampleGraph "A" "C" = ⟨["A", "B", "C"], some (.num 2)⟩ := by decide

example : dijkstra ⟨[⟨"A", "A"⟩], []⟩ "A" "B" = ⟨["B"], none⟩ := by decide

example : dijkstra ⟨[], []⟩ "A" "A" = ⟨["A"], some (.num 0)⟩ := by decide

example : dijkstra ⟨[], []⟩ "" "" = ⟨[], some (.num 0)⟩ := by decide

/-! ## Basic lemmas about the store operations -/

theorem dsGet_append (ns ms : List Node) (x : String) :
    dsGet (ns ++ ms) x = (dsGet ns x).or (dsGet ms x) := by
  simp [dsGet, List.find?_append]

theorem dsGet_eq_none {ns : List Node} {x : String} :
    dsGet ns x = none ↔ ∀ n ∈ ns, n.id ≠ x := by
  simp [dsGet, List.find?_eq_none]

theorem dsGet_isSome {ns : List Node} {x : String} :
    (dsGet ns x).isSome = true ↔ ∃ n ∈ ns, n.id = x := by
  simp [dsGet, List.find?_isSome]

theorem addNode_nodes (st : GraphState) (x : String) :
    (addNode st x).nodes = st.nodes ∨
      ((addNode st x).nodes = st.nodes ++ [⟨x, x⟩] ∧ x ≠ "" ∧ dsGet st.nodes x = none) := by
  unfold addNode
  split
  · next h => exact .inr ⟨rfl, h.1, Option.isNone_iff_eq_none.mp h.2⟩
  · exact .inl rfl

theorem addNode_edges (st : GraphState) (x : String) :
    (addNode st x).edges = st.edges := by
  unfold addNode; split <;> rfl

theorem addEdge_nodes (st : GraphState) (f t : String) (w : JNum) :
    (addEdge st f t w).nodes = st.nodes := by
  unfold addEdge; split <;> rfl

/-- C9 helper: after a successful insertion the id is found, so the guard of
a second identical `addNode` fails. -/
theorem addNode_addNode (st : GraphState) (x : String) :
    addNode (addNode st x) x = addNode st x := by
  by_cases h : x ≠ "" ∧ (dsGet st.nodes x).isNone
  · have h1 : addNode st x = { st with nodes := st.nodes ++ [⟨x, x⟩] } := by
      unfold addNode; rw [if_pos h]
    have h2 : dsGet (st.nodes ++ [(⟨x, x⟩ : Node)]) x = some ⟨x, x⟩ := by
      rw [dsGet_append, Option.isNone_iff_eq_none.mp h.2]
      simp [dsGet]
    rw [h1]
    unfold addNode
    rw [if_neg]
    simp [h2]
  · have h1 : addNode st x = st := by unfold addNode; rw [if_neg h]
    rw [h1, h1]

/-! ## Store invariant: snapshots of reachable states are valid -/

/-- Structural integrity of a store state: non-empty, duplicate-free node
ids and edges whose endpoints exist. -/
def StoreInv (st : GraphState) : Prop := ValidGraph (snapshot st)

theorem storeInv_empty : StoreInv emptyState := by
  refine ⟨?_, ?_, ?_⟩ <;> simp [emptyState, snapshot, nodeIds]

/-- Case analysis of `addEdge`: either the guard fails and the state is
returned unchanged, or the guard holds and the edge is appended. -/
theorem addEdge_spec (st : GraphState) (f t : String) (w : JNum) :
    addEdge st f t w = st ∨
      ((addEdge st f t w).nodes = st.nodes ∧
        (addEdge st f t w).edges = st.edges ++ [⟨f, t, w⟩] ∧
        f ≠ "" ∧ t ≠ "" ∧ jsTruthy w = true ∧
        (dsGet st.nodes f).isSome = true ∧ (dsGet st.nodes t).isSome = true) := by
  unfold addEdge
  split
  · next h => exact .inr ⟨rfl, rfl, h.1, h.2.1, h.2.2.1, h.2.2.2.1, h.2.2.2.2⟩
  · exact .inl rfl

theorem storeInv_applyOp {st : GraphState} (h : StoreInv st) (op : Op) :
    StoreInv (applyOp st op) := by
  simp only [StoreInv, ValidGraph, nodeIds, snapshot] at h ⊢
  obtain ⟨hne, hnd, hedge⟩ := h
  cases op with
  | addNode x =>
    show (∀ n ∈ (addNode st x).nodes, n.id ≠ "") ∧
      ((addNode st x).nodes.map Node.id).Nodup ∧
      ∀ e ∈ (addNode st x).edges,
        e.«from» ∈ (addNode st x).nodes.map Node.id ∧
        e.«to» ∈ (addNode st x).nodes.map Node.id
    rw [addNode_edges]
    rcases addNode_nodes st x with hn | ⟨hn, hx, hget⟩ <;> rw [hn]
    · exact ⟨hne, hnd, hedge⟩
    · have hfresh : ∀ n ∈ st.nodes, n.id ≠ x := dsGet_eq_none.mp hget
      refine ⟨?_, ?_, ?_⟩
      · intro n hn'
        rcases List.mem_append.mp hn' with h' | h'
        · exact hne n h'
        · simp only [List.mem_singleton] at h'
          subst h'
          exact hx
      · rw [List.map_append, List.nodup_append]
        refine ⟨hnd, by simp, ?_⟩
        intro a ha hb
        simp only [List.map_cons, List.map_nil, List.mem_singleton] at hb
        obtain ⟨n, hn', rfl⟩ := List.mem_map.mp ha
        exact hfresh n hn' (by simpa using hb)
      · intro e he
        obtain ⟨h1, h2⟩ := hedge e he
        rw [List.map_append]
        exact ⟨List.mem_append_left _ h1, List.mem_append_left _ h2⟩
  | addEdge f t w =>
    show (∀ n ∈ (addEdge st f t w).nodes, n.id ≠ "") ∧
      ((addEdge st f t w).nodes.map Node.id).Nodup ∧
      ∀ e ∈ (addEdge st f t w).edges,
        e.«from» ∈ (addEdge st f t w).nodes.map Node.id ∧
        e.«to» ∈ (addEdge st f t w).nodes.map Node.id
    rcases addEdge_spec st f t w with heq | ⟨hn, he, -, -, -, hf, ht⟩
    · rw [heq]; exact ⟨hne, hnd, hedge⟩
    · rw [hn, he]
      refine ⟨hne, hnd, ?_⟩
      intro e he'
      rcases List.mem_append.mp he' with h' | h'
      · exact hedge e h'
      · simp only [List.mem_singleton] at h'
        subst h'
        obtain ⟨nf, hnf, hnf'⟩ := dsGet_isSome.mp hf
        obtain ⟨nt, hnt, hnt'⟩ := dsGet_isSome.mp ht
        exact ⟨List.mem_map.mpr ⟨nf, hnf, hnf'⟩, List.mem_map.mpr ⟨nt, hnt, hnt'⟩⟩
  | clear =>
    refine ⟨?_, ?_, ?_⟩ <;> simp [applyOp, clearNetwork]

theorem storeInv_runOps (ops : List Op) : StoreInv (runOps ops) := by
  suffices h : ∀ st, StoreInv st → StoreInv (ops.foldl applyOp st) from
    h emptyState storeInv_empty
  induction ops with
  | nil => exact fun st h => h
  | cons op ops ih => exact fun st h => ih _ (storeInv_applyOp h op)

/-! ## Unfolding lemmas for the dijkstra loop -/

theorem sortPq_singleton (e : PQEntry) : sortPq [e] = [e] := rfl

theorem dijkstraLoop_succ (g : Graph) (endNode : String) (fuel : Nat) (st : LoopState) :
    dijkstraLoop g endNode (fuel + 1) st =
      match sortPq st.pq with
      | [] => st
      | e :: rest =>
        if e.node = endNode then { st with pq := rest }
        else dijkstraLoop g endNode fuel (relaxAll g.edges e.node { st with pq := rest }) :=
  rfl

theorem dijkstraLoop_empty_pq (g : Graph) (endNode : String) (fuel : Nat)
    {st : LoopState} (h : st.pq = []) : dijkstraLoop g endNode fuel st = st := by
  cases fuel with
  | zero => rfl
  | succ n => rw [dijkstraLoop_succ, h]; rfl

theorem dijkstraLoop_break (g : Graph) (endNode : String) (fuel : Nat)
    {st : LoopState} {e : PQEntry} {rest : List PQEntry}
    (h : sortPq st.pq = e :: rest) (he : e.node = endNode) :
    dijkstraLoop g endNode (fuel + 1) st = { st with pq := rest } := by
  rw [dijkstraLoop_succ, h]
  simp [he]

theorem dijkstraLoop_step (g : Graph) (endNode : String) (fuel : Nat)
    {st : LoopState} {e : PQEntry} {rest : List PQEntry}
    (h : sortPq st.pq = e :: rest) (he : e.node ≠ endNode) :
    dijkstraLoop g endNode (fuel + 1) st =
      dijkstraLoop g endNode fuel (relaxAll g.edges e.node { st with pq := rest }) := by
  rw [dijkstraLoop_succ, h]
  simp only [if_neg he]

theorem relaxEdge_not_incident {node : String} {st : LoopState} {e : Edge}
    (h : ¬(e.«from» = node ∨ e.«to» = node)) : relaxEdge node st e = st := by
  unfold relaxEdge; rw [if_neg h]

theorem relaxAll_not_incident {edges : List Edge} {node : String} (st : LoopState)
    (h : ∀ e ∈ edges, e.«from» ≠ node ∧ e.«to» ≠ node) :
    relaxAll edges node st = st := by
  induction edges generalizing st with
  | nil => rfl
  | cons e es ih =>
    have he := h e (List.mem_cons_self e es)
    unfold relaxAll
    simp only [List.foldl_cons]
    rw [relaxEdge_not_incident (by tauto)]
    exact ih st (fun e' h' => h e' (List.mem_cons_of_mem e h'))

/-- Shared helper for C5 and C10: with a non-empty start id equal to the
target, the first extraction is the target and the loop breaks at once. -/
theorem dijkstra_self (g : Graph) (x : String) (hx : x ≠ "") :
    dijkstra g x x = ⟨[x], some (.num 0)⟩ := by
  have hloop : dijkstraLoop g x (loopFuel g) (dijkstraInit g x) =
      { dijkstraInit g x with pq := [] } := by
    show dijkstraLoop g x ((g.nodes.length + 1) * (g.edges.length + 1) + 1) _ = _
    exact dijkstraLoop_break g x _ (sortPq_singleton _) rfl
  unfold dijkstra
  rw [hloop]
  have hwalk : walkPath (fun _ => none) (walkFuel g) x = [x] := by
    show walkPath (fun _ => none) (g.nodes.length + 2 + 1) x = [x]
    simp only [walkPath, if_neg hx]
  simp only [dijkstraInit] at hwalk ⊢
  rw [hwalk]
  simp

/-- Shared helper for C6: if the source is not a node of a valid snapshot,
the frontier empties after the source is extracted, nothing is relaxed, and
the reported distance for a different target is its initial value. -/
theorem dijkstra_absent_source {g : Graph} {s t : String} (hval : ValidGraph g)
    (hs : s ∉ nodeIds g) (hst : s ≠ t) (ht : t ≠ "") :
    dijkstra g s t =
      ⟨[t], if t ∈ nodeIds g then some .inf else none⟩ := by
  have hnoinc : ∀ e ∈ g.edges, e.«from» ≠ s ∧ e.«to» ≠ s := by
    intro e he
    obtain ⟨hf, htx⟩ := hval.2.2 e he
    constructor <;> rintro rfl <;> exact hs (by assumption)
  have hloop : dijkstraLoop g t (loopFuel g) (dijkstraInit g s) =
      { dijkstraInit g s with pq := [] } := by
    show dijkstraLoop g t ((g.nodes.length + 1) * (g.edges.length + 1) + 1) _ = _
    rw [dijkstraLoop_step g t _ (sortPq_singleton _) hst]
    rw [relaxAll_not_incident _ hnoinc]
    exact dijkstraLoop_empty_pq _ _ _ rfl
  unfold dijkstra
  rw [hloop]
  have hwalk : walkPath (fun _ => none) (walkFuel g) t = [t] := by
    show walkPath (fun _ => none) (g.nodes.length + 2 + 1) t = [t]
    simp only [walkPath, if_neg ht]
  simp only [dijkstraInit] at hwalk ⊢
  rw [hwalk]
  simp only [DijkstraResult.mk.injEq, true_and]
  rw [if_neg (fun h : t = s => hst h.symm)]

/-- Membership after a fold of `addNode`: every node either was already
there or carries one of the inserted ids. -/
theorem foldl_addNode_mem (ids : List String) (st : GraphState) :
    ∀ n ∈ (ids.foldl addNode st).nodes, n ∈ st.nodes ∨ n.id ∈ ids := by
  induction ids generalizing st with
  | nil => exact fun n hn => .inl hn
  | cons i is ih =>
    intro n hn
    simp only [List.foldl_cons] at hn
    rcases ih (addNode st i) n hn with h | h
    · rcases addNode_nodes st i with h' | ⟨h', -, -⟩ <;> rw [h'] at h
      · exact .inl h
      · rcases List.mem_append.mp h with h'' | h''
        · exact .inl h''
        · simp only [List.mem_singleton] at h''
          subst h''
          exact .inr (List.mem_cons_self _ _)
    · exact .inr (List.mem_cons_of_mem _ h)

theorem runAddNodes_eq_runOps (ids : List String) :
    runAddNodes ids = runOps (ids.map Op.addNode) := by
  unfold runAddNodes runOps
  rw [List.foldl_map]
  rfl

/-! ## Claim theorems -/

/-- C2 (corrected).  The code checks only JS truthiness of `weight`, not
that it is a valid non-negative number: `addEdge` is a silent no-op (state
unchanged, nodes never touched) exactly when `from` or `to` is empty,
`weight` is falsy (`0` or `NaN`), or an endpoint is missing; every other
weight -- including negative ones and `Infinity` -- is inserted, and weight
`0` is rejected. -/
theorem spec_C2 (st : GraphState) (f t : String) (w : JNum) :
    (addEdge st f t w).nodes = st.nodes ∧
    (addEdge st f t w = st ↔
      (f = "" ∨ t = "" ∨ jsTruthy w = false ∨
        dsGet st.nodes f = none ∨ dsGet st.nodes t = none)) ∧
    (¬(f = "" ∨ t = "" ∨ jsTruthy w = false ∨
        dsGet st.nodes f = none ∨ dsGet st.nodes t = none) →
      (addEdge st f t w).edges = st.edges ++ [⟨f, t, w⟩]) := by
  have hiff : (f ≠ "" ∧ t ≠ "" ∧ jsTruthy w = true ∧
      (dsGet st.nodes f).isSome = true ∧ (dsGet st.nodes t).isSome = true) ↔
      ¬(f = "" ∨ t = "" ∨ jsTruthy w = false ∨
        dsGet st.nodes f = none ∨ dsGet st.nodes t = none) := by
    constructor
    · rintro ⟨h1, h2, h3, h4, h5⟩ (h | h | h | h | h)
      · exact h1 h
      · exact h2 h
      · rw [h3] at h; cases h
      · exact Option.isSome_iff_ne_none.mp h4 h
      · exact Option.isSome_iff_ne_none.mp h5 h
    · intro hd
      push_neg at hd
      obtain ⟨h1, h2, h3, h4, h5⟩ := hd
      refine ⟨h1, h2, ?_, Option.isSome_iff_ne_none.mpr h4,
        Option.isSome_iff_ne_none.mpr h5⟩
      cases hjs : jsTruthy w
      · exact absurd hjs h3
      · rfl
  refine ⟨addEdge_nodes st f t w, ?_, ?_⟩
  · constructor
    · intro heq
      by_contra hd
      have hc := hiff.mpr hd
      have : (addEdge st f t w).edges = st.edges ++ [⟨f, t, w⟩] := by
        unfold addEdge
        rw [if_pos]
        exact ⟨hc.1, hc.2.1, hc.2.2.1, hc.2.2.2.1, hc.2.2.2.2⟩
      rw [heq] at this
      have := congrArg List.length this
      simp at this
    · intro hd
      unfold addEdge
      rw [if_neg]
      intro hc
      exact (hiff.mp ⟨hc.1, hc.2.1, hc.2.2.1, hc.2.2.2.1, hc.2.2.2.2⟩) hd
  · intro hd
    have hc := hiff.mpr hd
    unfold addEdge
    rw [if_pos]
    exact ⟨hc.1, hc.2.1, hc.2.2.1, hc.2.2.2.1, hc.2.2.2.2⟩

/-- C2 counterexample: with both endpoints present, a negative weight is
inserted (the claim says it is rejected) and weight `0` is rejected (the
claim says it is inserted). -/
theorem cex_C2 :
    addEdge twoNodeState "A" "B" (.num (-1)) ≠ twoNodeState ∧
    addEdge twoNodeState "A" "B" (.num 0) = twoNodeState := by decide

/-- C2 witness: a truthy weight with existing endpoints is appended. -/
theorem spec_C2_witness :
    (addEdge twoNodeState "A" "B" (.num 2)).edges =
      twoNodeState.edges ++ [⟨"A", "B", .num 2⟩] :=
  (spec_C2 twoNodeState "A" "B" (.num 2)).2.2 (by decide)

/-- C3 (corrected).  The core's `addNode` performs no case normalization --
uppercasing happens in the UI input handler before the core is called -- so
the node set is duplicate-free with respect to exact ids for every call
sequence, and duplicate-free after uppercasing only when the inputs are
already uppercase-fixed. -/
theorem spec_C3 (ids : List String) :
    ((runAddNodes ids).nodes.map Node.id).Nodup ∧
    ((∀ i ∈ ids, upperStr i = i) →
      (((runAddNodes ids).nodes.map Node.id).map upperStr).Nodup) := by
  have hnodup : ((runAddNodes ids).nodes.map Node.id).Nodup := by
    have h := storeInv_runOps (ids.map Op.addNode)
    rw [← runAddNodes_eq_runOps] at h
    exact h.2.1
  refine ⟨hnodup, fun hup => ?_⟩
  have hmem : ∀ a ∈ (runAddNodes ids).nodes.map Node.id, upperStr a = id a := by
    intro a ha
    obtain ⟨n, hn, rfl⟩ := List.mem_map.mp ha
    rcases foldl_addNode_mem ids emptyState n hn with h | h
    · simp [emptyState] at h
    · exact hup _ h
  have heq : ((runAddNodes ids).nodes.map Node.id).map upperStr
      = (runAddNodes ids).nodes.map Node.id := by
    rw [List.map_congr_left hmem, List.map_id]
  rw [heq]
  exact hnodup

/-- C3 counterexample: the inputs "a" then "A" both survive, and their
case-normalized ids coincide, refuting normalization inside the core. -/
theorem cex_C3 :
    (runAddNodes ["a", "A"]).nodes.map (fun n => upperStr n.id) = ["A", "A"] ∧
    ¬((runAddNodes ["a", "A"]).nodes.map (fun n => upperStr n.id)).Nodup := by decide

/-- C3 witness: for uppercase inputs the normalized ids are duplicate-free. -/
theorem spec_C3_witness :
    (((runAddNodes ["A", "B"]).nodes.map Node.id).map upperStr).Nodup :=
  (spec_C3 ["A", "B"]).2 (by decide)

/-- C5 (confirmed): for a node of a valid snapshot, `dijkstra x x` breaks on
the first extraction and reports the single-node path with cost 0. -/
theorem spec_C5 (g : Graph) (x : String) (hval : ValidGraph g) (hx : x ∈ nodeIds g) :
    dijkstra g x x = ⟨[x], some (.num 0)⟩ := by
  refine dijkstra_self g x ?_
  obtain ⟨n, hn, rfl⟩ := List.mem_map.mp hx
  exact hval.1 n hn

/-- C5 witness. -/
theorem spec_C5_witness : dijkstra exampleGraph "A" "A" = ⟨["A"], some (.num 0)⟩ :=
  spec_C5 exampleGraph "A" (by decide) (by decide)

/-- C6 (corrected).  With the source absent from a valid snapshot (in
particular any query after `clear()`), a *different*, non-empty target is
reported as the single-element path with an unreachable cost; the case
`sourceId = targetId` must be excluded, since the code then breaks
immediately with cost 0 even on the empty graph. -/
theorem spec_C6 (g : Graph) (s t : String) (hval : ValidGraph g) (hs : s ∉ nodeIds g)
    (hst : s ≠ t) (ht : t ≠ "") :
    (dijkstra g s t).path = [t] ∧ Unreachable (dijkstra g s t).distance := by
  rw [dijkstra_absent_source hval hs hst ht]
  refine ⟨rfl, ?_⟩
  by_cases h : t ∈ nodeIds g <;> simp [Unreachable, h]

/-- C6 counterexample: on the empty graph (the state after `clear()`) the
query with `sourceId = targetId = "A"` returns cost 0, not Unreachable. -/
theorem cex_C6 :
    dijkstra ⟨[], []⟩ "A" "A" = ⟨["A"], some (.num 0)⟩ ∧
    ¬Unreachable (dijkstra ⟨[], []⟩ "A" "A").distance := by decide

/-- C6 witness: an absent source against a concrete valid snapshot. -/
theorem spec_C6_witness :
    (dijkstra exampleGraph "X" "C").path = ["C"] ∧
    Unreachable (dijkstra exampleGraph "X" "C").distance :=
  spec_C6 exampleGraph "X" "C" (by decide) (by decide) (by decide) (by decide)

/-- C8 (confirmed): in every state reachable by `addNode`/`addEdge`/`clear`
from the empty store, both endpoints of every stored edge exist as nodes. -/
theorem spec_C8 (ops : List Op) :
    ∀ e ∈ (runOps ops).edges,
      (∃ n ∈ (runOps ops).nodes, n.id = e.«from») ∧
      (∃ n ∈ (runOps ops).nodes, n.id = e.«to») := by
  intro e he
  obtain ⟨-, -, hedge⟩ := storeInv_runOps ops
  obtain ⟨h1, h2⟩ := hedge e he
  obtain ⟨n1, hn1, hid1⟩ := List.mem_map.mp h1
  obtain ⟨n2, hn2, hid2⟩ := List.mem_map.mp h2
  exact ⟨⟨n1, hn1, hid1⟩, ⟨n2, hn2, hid2⟩⟩

/-- C8 witness: a concrete mutation sequence ending with a stored edge. -/
theorem spec_C8_witness :
    (∃ n ∈ (runOps [.addNode "A", .addNode "B", .addEdge "A" "B" (.num 2)]).nodes,
      n.id = "A") ∧
    (∃ n ∈ (runOps [.addNode "A", .addNode "B", .addEdge "A" "B" (.num 2)]).nodes,
      n.id = "B") :=
  spec_C8 [.addNode "A", .addNode "B", .addEdge "A" "B" (.num 2)]
    ⟨"A", "B", .num 2⟩ (by decide)

/-- C9 (confirmed): `addNode` is idempotent -- the second identical call
finds the id present (or the guard failing as before) and changes nothing. -/
theorem spec_C9 (st : GraphState) (x : String) :
    addNode (addNode st x) x = addNode st x :=
  addNode_addNode st x

/-- C10 (corrected): `dijkstra g x x` returns `([x], 0)` for every graph
snapshot and every *non-empty* string `x`, even when `x` is not a node; the
start distance is set to 0 unconditionally.  For `x = ""` the claim fails:
the reconstruction loop treats the empty string as falsy and returns the
empty path. -/
theorem spec_C10 (g : Graph) (x : String) (hx : x ≠ "") :
    dijkstra g x x = ⟨[x], some (.num 0)⟩ :=
  dijkstra_self g x hx

/-- C10 counterexample: at `x = ""` the returned path is empty, not
`[x]` (the cost is still 0). -/
theorem cex_C10 :
    (dijkstra ⟨[], []⟩ "" "").path ≠ [""] ∧
    (dijkstra ⟨[], []⟩ "" "").distance = some (.num 0) := by decide

/-- C10 witness. -/
theorem spec_C10_witness : dijkstra ⟨[], []⟩ "B" "B" = ⟨["B"], some (.num 0)⟩ :=
  spec_C10 ⟨[], []⟩ "B" (by decide)

/-! ## JNum helper lemmas -/

theorem jsLt_num_true {a : ℚ} {d : Option JNum} (h : jsLt (.num a) d = true) :
    d = some .inf ∨ ∃ b : ℚ, d = some (.num b) ∧ a < b := by
  match d with
  | none => simp [jsLt] at h
  | some .nan => simp [jsLt] at h
  | some .inf => exact .inl rfl
  | some (.num b) =>
    refine .inr ⟨b, rfl, ?_⟩
    simpa [jsLt] using h

theorem jsLt_num_false {a b : ℚ} (h : jsLt (.num a) (some (.num b)) = false) :
    b ≤ a := by
  simpa [jsLt, not_lt] using h

/-! ## Walk and edge lemmas -/

theorem edgeBetween_symm {g : Graph} {a b : String} {w : ℚ}
    (h : EdgeBetween g a b w) : EdgeBetween g b a w := by
  obtain ⟨e, he, hw, hor⟩ := h
  exact ⟨e, he, hw, hor.symm⟩

theorem edgeBetween_nonneg {g : Graph} (hw : NonnegWeights g) {a b : String} {w : ℚ}
    (h : EdgeBetween g a b w) : 0 ≤ w := by
  obtain ⟨e, he, hew, -⟩ := h
  have := hw e he
  rw [hew] at this
  simpa [jnumIsNonneg] using this

theorem edgeBetween_mem_left {g : Graph} (hval : ValidGraph g) {a b : String} {w : ℚ}
    (h : EdgeBetween g a b w) : a ∈ nodeIds g := by
  obtain ⟨e, he, -, hor⟩ := h
  obtain ⟨h1, h2⟩ := hval.2.2 e he
  rcases hor with ⟨rfl, -⟩ | ⟨-, rfl⟩
  · exact h1
  · exact h2

theorem isWalk_nonneg {g : Graph} (hw : NonnegWeights g) {s y : String} {c : ℚ}
    (h : IsWalk g s y c) : 0 ≤ c := by
  induction h with
  | nil => exact le_refl 0
  | snoc hwalk he ih => exact add_nonneg ih (edgeBetween_nonneg hw he)

theorem isWalk_end_mem {g : Graph} (hval : ValidGraph g) {s y : String} {c : ℚ}
    (h : IsWalk g s y c) : y = s ∨ y ∈ nodeIds g := by
  induction h with
  | nil => exact .inl rfl
  | snoc hwalk he ih => exact .inr (edgeBetween_mem_left hval (edgeBetween_symm he))

/-- Appending one more edge to a node-list walk. -/
theorem chainW_snoc {g : Graph} {l : List String} {c : ℚ} (h : ChainW g l c)
    {v y : String} {w : ℚ} (hlast : l.getLast? = some v) (he : EdgeBetween g v y w) :
    ChainW g (l ++ [y]) (c + w) := by
  induction h with
  | single a =>
    have hav : a = v := by simpa using hlast
    have hea : EdgeBetween g a y w := by rw [hav]; exact he
    have h2 : ChainW g [a, y] (w + 0) := ChainW.cons hea (ChainW.single y)
    have h3 : ChainW g [a, y] (0 + w) := by rwa [add_comm] at h2
    simpa using h3
  | @cons a b l' w' c' he' hch ih =>
    have hlast' : (b :: l').getLast? = some v := by
      rwa [List.getLast?_cons_cons] at hlast
    have := ChainW.cons he' (ih hlast')
    simpa [add_assoc] using this

/-! ## Sorting lemmas -/

theorem insertEntry_perm (e : PQEntry) (l : List PQEntry) :
    List.Perm (insertEntry e l) (e :: l) := by
  induction l with
  | nil => exact List.Perm.refl _
  | cons x xs ih =>
    unfold insertEntry
    split
    · exact List.Perm.refl _
    · exact (ih.cons x).trans (List.Perm.swap e x xs)

theorem sortPq_perm (l : List PQEntry) : List.Perm (sortPq l) l := by
  induction l with
  | nil => exact List.Perm.refl _
  | cons e xs ih =>
    exact (insertEntry_perm e (sortPq xs)).trans (ih.cons e)

theorem insertEntry_sorted {e : PQEntry} {l : List PQEntry}
    (h : l.Pairwise (fun a b => keyVal a.distance ≤ keyVal b.distance)) :
    (insertEntry e l).Pairwise (fun a b => keyVal a.distance ≤ keyVal b.distance) := by
  induction l with
  | nil => simp [insertEntry]
  | cons x xs ih =>
    unfold insertEntry
    split
    · next hle =>
      refine List.Pairwise.cons ?_ h
      intro b hb
      have hex : keyVal e.distance ≤ keyVal x.distance := of_decide_eq_true hle
      rcases List.mem_cons.mp hb with rfl | hb
      · exact hex
      · exact le_trans hex (List.rel_of_pairwise_cons h hb)
    · next hle =>
      have hxe : keyVal x.distance ≤ keyVal e.distance :=
        le_of_not_le (fun hc => hle (decide_eq_true hc))
      rcases List.pairwise_cons.mp h with ⟨hx, hxs⟩
      refine List.pairwise_cons.mpr ⟨?_, ih hxs⟩
      intro b hb
      have := (insertEntry_perm e xs).mem_iff.mp hb
      rcases List.mem_cons.mp this with rfl | hb'
      · exact hxe
      · exact hx b hb'

theorem sortPq_sorted (l : List PQEntry) :
    (sortPq l).Pairwise (fun a b => keyVal a.distance ≤ keyVal b.distance) := by
  induction l with
  | nil => exact List.Pairwise.nil
  | cons e xs ih => exact insertEntry_sorted ih

/-- The head of the sorted frontier has the minimal key. -/
theorem sortPq_head_min {pq : List PQEntry} {e : PQEntry} {rest : List PQEntry}
    (h : sortPq pq = e :: rest) :
    ∀ p ∈ pq, keyVal e.distance ≤ keyVal p.distance := by
  intro p hp
  have hmem : p ∈ e :: rest := by
    rw [← h]
    exact ((sortPq_perm pq).symm.mem_iff).mp hp
  rcases List.mem_cons.mp hmem with rfl | hmem'
  · exact le_refl _
  · have hs := sortPq_sorted pq
    rw [h] at hs
    exact List.rel_of_pairwise_cons hs hmem'

/-- Members of the unsorted frontier, seen through a sorted head/tail split. -/
theorem mem_of_sortPq {pq : List PQEntry} {e : PQEntry} {rest : List PQEntry}
    (h : sortPq pq = e :: rest) {p : PQEntry} (hp : p ∈ pq) : p = e ∨ p ∈ rest := by
  have : p ∈ e :: rest := by
    rw [← h]
    exact ((sortPq_perm pq).symm.mem_iff).mp hp
  exact List.mem_cons.mp this

theorem sortPq_length (l : List PQEntry) : (sortPq l).length = l.length :=
  (sortPq_perm l).length_eq

/-! ## Update and relaxation lemmas -/

theorem updateFn_same {α : Type} (f : String → α) (k : String) (v : α) :
    updateFn f k v k = v := by simp [updateFn]

theorem updateFn_other {α : Type} (f : String → α) {k x : String} (v : α) (h : x ≠ k) :
    updateFn f k v x = f x := by simp [updateFn, h]

theorem jnumIsNonneg_elim {w : JNum} (h : jnumIsNonneg w = true) :
    ∃ q : ℚ, w = .num q ∧ 0 ≤ q := by
  cases w with
  | num q => exact ⟨q, rfl, by simpa [jnumIsNonneg] using h⟩
  | inf => simp [jnumIsNonneg] at h
  | nan => simp [jnumIsNonneg] at h

/-- `relaxEdge` with its lets unfolded. -/
theorem relaxEdge_eq (u : String) (st : LoopState) (e : Edge) :
    relaxEdge u st e =
      if e.«from» = u ∨ e.«to» = u then
        (if jsLt (jsAdd (st.distances u) e.weight)
            (st.distances (if e.«from» = u then e.«to» else e.«from»)) = true then
          { distances := updateFn st.distances
              (if e.«from» = u then e.«to» else e.«from»)
              (some (jsAdd (st.distances u) e.weight)),
            previous := updateFn st.previous
              (if e.«from» = u then e.«to» else e.«from») (some u),
            pq := st.pq ++ [⟨(if e.«from» = u then e.«to» else e.«from»),
              jsAdd (st.distances u) e.weight⟩] }
        else st)
      else st := rfl

theorem relaxedFor_mono {g : Graph} {st st' : LoopState} {u : String} {es : List Edge}
    (hu : st'.distances u = st.distances u)
    (hdec : ∀ z qz, st.distances z = some (.num qz) →
      ∃ qz', st'.distances z = some (.num qz') ∧ qz' ≤ qz)
    (h : RelaxedFor g st u es) : RelaxedFor g st' u es := by
  intro e he y hpat w hew
  obtain ⟨qu, qy, h1, h2, h3⟩ := h e he y hpat w hew
  obtain ⟨qy', hy', hle⟩ := hdec y qy h2
  exact ⟨qu, qy', hu.trans h1, hy', by linarith⟩


/-- The one-edge step of the relaxation fold preserves the fold invariant. -/
theorem relaxEdge_foldinv {g : Graph} {s u : String} {S : List String}
    (hval : ValidGraph g) (hw : NonnegWeights g) (hu : u ∈ S)
    {st : LoopState} {processed : List Edge} {e : Edge}
    (he : e ∈ g.edges) (hinv : FoldInv g s u S st processed) :
    FoldInv g s u S (relaxEdge u st e) (processed ++ [e]) := by
  obtain ⟨hcore, hothers, hproc⟩ := hinv
  by_cases hinc : e.«from» = u ∨ e.«to» = u
  case neg =>
    rw [relaxEdge_not_incident hinc]
    refine ⟨hcore, hothers, ?_⟩
    intro e' he' y hpat w hew
    rcases List.mem_append.mp he' with h' | h'
    · exact hproc e' h' y hpat w hew
    · simp only [List.mem_singleton] at h'
      rw [h'] at hpat
      rcases hpat with ⟨hf, -⟩ | ⟨ht, -⟩
      · exact absurd (Or.inl hf) hinc
      · exact absurd (Or.inr ht) hinc
  case pos =>
    obtain ⟨qu, hqu, humin⟩ := hcore.settled u hu
    obtain ⟨w, hew, hw0⟩ := jnumIsNonneg_elim (hw e he)
    set y := if e.«from» = u then e.«to» else e.«from» with hy_def
    have hcand : jsAdd (st.distances u) e.weight = .num (qu + w) := by
      rw [hqu, hew]; rfl
    have hy_mem : y ∈ nodeIds g := by
      obtain ⟨h1, h2⟩ := hval.2.2 e he
      rw [hy_def]
      split <;> assumption
    have hEB : EdgeBetween g u y w := by
      refine ⟨e, he, hew, ?_⟩
      rw [hy_def]
      by_cases hfu : e.«from» = u
      · rw [if_pos hfu]; exact .inl ⟨hfu, rfl⟩
      · rw [if_neg hfu]; exact .inr ⟨rfl, hinc.resolve_left hfu⟩
    by_cases hlt : jsLt (jsAdd (st.distances u) e.weight) (st.distances y) = true
    case neg =>
      -- no relaxation: the edge was already relaxed
      have hltf : jsLt (.num (qu + w)) (st.distances y) = false := by
        rw [← hcand]
        simpa using hlt
      have hno : relaxEdge u st e = st := by
        rw [relaxEdge_eq, if_pos hinc, if_neg (by rw [← hy_def]; exact hlt)]
      rw [hno]
      have hbound : ∃ qy : ℚ, st.distances y = some (.num qy) ∧ qy ≤ qu + w := by
        rcases hsome : st.distances y with - | d
        · exact absurd (hcore.dist_def y hy_mem) (by simp [hsome])
        · cases d with
          | num qy =>
            rw [hsome] at hltf
            exact ⟨qy, rfl, jsLt_num_false hltf⟩
          | inf =>
            rw [hsome] at hltf
            simp [jsLt] at hltf
          | nan => exact absurd hsome (hcore.no_nan y)
      refine ⟨hcore, hothers, ?_⟩
      intro e' he' y' hpat w' hew'
      rcases List.mem_append.mp he' with h' | h'
      · exact hproc e' h' y' hpat w' hew'
      · simp only [List.mem_singleton] at h'
        rw [h'] at hpat hew'
        have hww : w' = w := by rw [hew] at hew'; exact (JNum.num.injEq _ _).mp hew'.symm
        subst hww
        obtain ⟨qy, hqy, hqyle⟩ := hbound
        by_cases hfu : e.«from» = u
        · have hyto : y = e.«to» := by rw [hy_def, if_pos hfu]
          rcases hpat with ⟨-, rfl⟩ | ⟨ht, rfl⟩
          · refine ⟨qu, qy, hqu, ?_, hqyle⟩
            rw [← hyto]; exact hqy
          · exact ⟨qu, qu, hqu, hfu ▸ hqu, by linarith⟩
        · have htu : e.«to» = u := hinc.resolve_left hfu
          have hyfrom : y = e.«from» := by rw [hy_def, if_neg hfu]
          rcases hpat with ⟨hf, -⟩ | ⟨-, rfl⟩
          · exact absurd hf hfu
          · refine ⟨qu, qy, hqu, ?_, hqyle⟩
            rw [← hyfrom]; exact hqy
    case pos =>
      -- relaxation: distances, previous and pq are all updated at y
      have hupd : relaxEdge u st e =
          { distances := updateFn st.distances y (some (.num (qu + w))),
            previous := updateFn st.previous y (some u),
            pq := st.pq ++ [⟨y, .num (qu + w)⟩] } := by
        rw [relaxEdge_eq, if_pos hinc, if_pos (by rw [← hy_def]; exact hlt), ← hy_def, hcand]
      rw [hcand] at hlt
      have hltc := jsLt_num_true hlt
      -- y is strictly improved, hence not settled, not the source, not u
      have hyS : y ∉ S := by
        intro hyS
        obtain ⟨qy, hqy, hymin⟩ := hcore.settled y hyS
        have hwalk : IsWalk g s y (qu + w) := IsWalk.snoc (hcore.ub u qu hqu) hEB
        have h1 : qy ≤ qu + w := hymin _ hwalk
        rcases hltc with h2 | ⟨qy', hqy', h2⟩
        · rw [hqy] at h2; cases h2
        · rw [hqy] at hqy'
          have h3 : qy = qy' := by simpa using hqy'
          rw [← h3] at h2
          linarith
      have hys : y ≠ s := by
        intro hys
        have hqu0 : 0 ≤ qu := isWalk_nonneg hw (hcore.ub u qu hqu)
        rcases hltc with h2 | ⟨qy', hqy', h2⟩
        · rw [hys, hcore.src_dist] at h2; cases h2
        · rw [hys, hcore.src_dist] at hqy'
          have h3 : (0 : ℚ) = qy' := by simpa using hqy'
          rw [← h3] at h2
          linarith
      have hyu : y ≠ u := by
        intro hyu
        rcases hltc with h2 | ⟨qy', hqy', h2⟩
        · rw [hyu, hqu] at h2; cases h2
        · rw [hyu, hqu] at hqy'
          have h3 : qu = qy' := by simpa using hqy'
          rw [← h3] at h2
          linarith
      have huy : u ≠ y := fun h => hyu h.symm
      rw [hupd]
      have hDyy : updateFn st.distances y (some (.num (qu + w))) y =
          some (.num (qu + w)) := updateFn_same _ _ _
      have hDo : ∀ z, z ≠ y →
          updateFn st.distances y (some (.num (qu + w))) z = st.distances z :=
        fun z hz => updateFn_other _ _ hz
      have hPo : ∀ z, z ≠ y → updateFn st.previous y (some u) z = st.previous z :=
        fun z hz => updateFn_other _ _ hz
      have hdec : ∀ z qz, st.distances z = some (.num qz) →
          ∃ qz', updateFn st.distances y (some (.num (qu + w))) z =
            some (.num qz') ∧ qz' ≤ qz := by
        intro z qz hz
        by_cases hzy : z = y
        · subst hzy
          refine ⟨qu + w, hDyy, ?_⟩
          rcases hltc with h2 | ⟨qy', hqy', h2⟩
          · rw [hz] at h2; cases h2
          · rw [hz] at hqy'
            have h3 : qz = qy' := by simpa using hqy'
            rw [← h3] at h2
            linarith
        · exact ⟨qz, (hDo z hzy).trans hz, le_refl _⟩
      have hSy : ∀ z ∈ S, z ≠ y := fun z hz hzy => hyS (hzy ▸ hz)
      refine ⟨?_, ?_, ?_⟩
      · -- the core invariant for the updated state
        refine { src_dist := ?_, no_nan := ?_, dist_def := ?_, ub := ?_,
                 fin_prev := ?_, pq_key := ?_, pq_node := ?_, pq_mem := ?_,
                 settled := ?_, prev_spec := ?_, prev_idx := ?_,
                 s_nodup := hcore.s_nodup, s_sub := hcore.s_sub }
        · exact (hDo s (fun h => hys h.symm)).trans hcore.src_dist
        · intro z
          show updateFn st.distances y (some (.num (qu + w))) z ≠ some .nan
          by_cases hzy : z = y
          · subst hzy; rw [hDyy]; simp
          · rw [hDo z hzy]; exact hcore.no_nan z
        · intro z hz
          show (updateFn st.distances y (some (.num (qu + w))) z).isSome = true
          by_cases hzy : z = y
          · subst hzy; rw [hDyy]; rfl
          · rw [hDo z hzy]; exact hcore.dist_def z hz
        · intro z q hz
          have hz' : updateFn st.distances y (some (.num (qu + w))) z =
              some (.num q) := hz
          by_cases hzy : z = y
          · subst hzy
            rw [hDyy] at hz'
            have h3 : qu + w = q := by simpa using hz'
            exact h3 ▸ IsWalk.snoc (hcore.ub u qu hqu) hEB
          · rw [hDo z hzy] at hz'
            exact hcore.ub z q hz'
        · intro z q hz hzs
          have hz' : updateFn st.distances y (some (.num (qu + w))) z =
              some (.num q) := hz
          show updateFn st.previous y (some u) z ≠ none
          by_cases hzy : z = y
          · subst hzy
            rw [updateFn_same]
            simp
          · rw [hDo z hzy] at hz'
            rw [hPo z hzy]
            exact hcore.fin_prev z q hz' hzs
        · intro p hp
          have hp2 : p ∈ st.pq ++ [(⟨y, .num (qu + w)⟩ : PQEntry)] := hp
          show ∃ k q : ℚ, p.distance = .num k ∧
            updateFn st.distances y (some (.num (qu + w))) p.node =
              some (.num q) ∧ q ≤ k
          rcases List.mem_append.mp hp2 with hp' | hp'
          · obtain ⟨k, q, hk, hq, hle⟩ := hcore.pq_key p hp'
            obtain ⟨q', hq', hle'⟩ := hdec p.node q hq
            exact ⟨k, q', hk, hq', by linarith⟩
          · simp only [List.mem_singleton] at hp'
            subst hp'
            exact ⟨qu + w, qu + w, rfl, hDyy, le_refl _⟩
        · intro p hp
          have hp2 : p ∈ st.pq ++ [(⟨y, .num (qu + w)⟩ : PQEntry)] := hp
          rcases List.mem_append.mp hp2 with hp' | hp'
          · exact hcore.pq_node p hp'
          · simp only [List.mem_singleton] at hp'
            subst hp'
            exact .inr hy_mem
        · intro z q hzS hz
          have hz' : updateFn st.distances y (some (.num (qu + w))) z =
              some (.num q) := hz
          show (⟨z, .num q⟩ : PQEntry) ∈ st.pq ++ [(⟨y, .num (qu + w)⟩ : PQEntry)]
          by_cases hzy : z = y
          · subst hzy
            rw [hDyy] at hz'
            have h3 : (JNum.num (qu + w)) = .num q := by simpa using hz'
            rw [← h3]
            exact List.mem_append_right _ (List.mem_singleton.mpr rfl)
          · rw [hDo z hzy] at hz'
            exact List.mem_append_left _ (hcore.pq_mem z q hzS hz')
        · intro u' hu'
          obtain ⟨q, hq, hmin⟩ := hcore.settled u' hu'
          exact ⟨q, (hDo u' (hSy u' hu')).trans hq, hmin⟩
        · intro z v hzv
          have hzv' : updateFn st.previous y (some u) z = some v := hzv
          by_cases hzy : z = y
          · subst hzy
            rw [updateFn_same] at hzv'
            have hv : u = v := by simpa using hzv'
            subst hv
            refine ⟨hu, qu, w, qu + w, ?_, hDyy, hEB, rfl⟩
            exact (hDo u huy).trans hqu
          · rw [hPo z hzy] at hzv'
            obtain ⟨hvS, qv, w', qz, h1, h2, h3, h4⟩ := hcore.prev_spec z v hzv'
            exact ⟨hvS, qv, w', qz, (hDo v (hSy v hvS)).trans h1,
              (hDo z hzy).trans h2, h3, h4⟩
        · intro z v hzv hzS
          have hzv' : updateFn st.previous y (some u) z = some v := hzv
          by_cases hzy : z = y
          · exact absurd (hzy ▸ hzS) hyS
          · rw [hPo z hzy] at hzv'
            exact hcore.prev_idx z v hzv' hzS
      · -- previously settled nodes stay relaxed
        intro u' hu' huu
        exact relaxedFor_mono (hDo u' (hSy u' hu')) hdec (hothers u' hu' huu)
      · -- u is relaxed for the processed edges plus e
        intro e' he' y' hpat w' hew'
        rcases List.mem_append.mp he' with h' | h'
        · exact relaxedFor_mono (hDo u huy) hdec hproc e' h' y' hpat w' hew'
        · simp only [List.mem_singleton] at h'
          rw [h'] at hpat hew'
          have hww : w' = w := by rw [hew] at hew'; exact (JNum.num.injEq _ _).mp hew'.symm
          rw [hww]
          by_cases hfu : e.«from» = u
          · have hyto : y = e.«to» := by rw [hy_def, if_pos hfu]
            rcases hpat with ⟨-, rfl⟩ | ⟨ht, rfl⟩
            · refine ⟨qu, qu + w, (hDo u huy).trans hqu, ?_, le_refl _⟩
              rw [← hyto]
              exact hDyy
            · exact absurd (hyto ▸ ht : y = u) hyu
          · have htu : e.«to» = u := hinc.resolve_left hfu
            have hyfrom : y = e.«from» := by rw [hy_def, if_neg hfu]
            rcases hpat with ⟨hf, -⟩ | ⟨-, rfl⟩
            · exact absurd hf hfu
            · refine ⟨qu, qu + w, (hDo u huy).trans hqu, ?_, le_refl _⟩
              rw [← hyfrom]
              exact hDyy

/-- The whole relaxation fold, by induction over the edge list. -/
theorem foldl_relax_foldinv {g : Graph} {s u : String} {S : List String}
    (hval : ValidGraph g) (hw : NonnegWeights g) (hu : u ∈ S) :
    ∀ (post pre : List Edge) (st : LoopState), pre ++ post = g.edges →
      FoldInv g s u S st pre →
      FoldInv g s u S (post.foldl (relaxEdge u) st) (pre ++ post) := by
  intro post
  induction post with
  | nil =>
    intro pre st h hinv
    simpa using hinv
  | cons e es ih =>
    intro pre st h hinv
    have he : e ∈ g.edges := by
      rw [← h]
      exact List.mem_append.mpr (.inr (List.mem_cons_self _ _))
    have h2 : (pre ++ [e]) ++ es = g.edges := by rw [← h]; simp
    have hstep := relaxEdge_foldinv hval hw hu he hinv
    have hres := ih (pre ++ [e]) (relaxEdge u st e) h2 hstep
    simpa using hres

/-- After the fold, the full invariant holds with `u` settled. -/
theorem relaxAll_establishes {g : Graph} {s u : String} {S : List String}
    (hval : ValidGraph g) (hw : NonnegWeights g) (hu : u ∈ S)
    {st : LoopState} (hcore : DCore g s st S)
    (hothers : ∀ u' ∈ S, u' ≠ u → RelaxedFor g st u' g.edges) :
    DInv g s (relaxAll g.edges u st) S := by
  have hres := foldl_relax_foldinv hval hw hu g.edges [] st rfl
    ⟨hcore, hothers, fun e he => absurd he (List.not_mem_nil e)⟩
  obtain ⟨hcore', hothers', hproc'⟩ := hres
  refine ⟨hcore', ?_⟩
  intro u' hu'
  by_cases h : u' = u
  · subst h
    simpa using hproc'
  · exact hothers' u' hu' h

/-- A single relaxation against an already-relaxed edge does nothing. -/
theorem relaxEdge_of_relaxed {g : Graph} {u : String} {st : LoopState} {e : Edge}
    (hw : NonnegWeights g) (he : e ∈ g.edges)
    (hrel : RelaxedFor g st u g.edges) : relaxEdge u st e = st := by
  by_cases hinc : e.«from» = u ∨ e.«to» = u
  · obtain ⟨w, hew, hw0⟩ := jnumIsNonneg_elim (hw e he)
    set y := if e.«from» = u then e.«to» else e.«from» with hy_def
    have hpat : (e.«from» = u ∧ e.«to» = y) ∨ (e.«to» = u ∧ e.«from» = y) := by
      rw [hy_def]
      by_cases hfu : e.«from» = u
      · rw [if_pos hfu]; exact .inl ⟨hfu, rfl⟩
      · rw [if_neg hfu]; exact .inr ⟨hinc.resolve_left hfu, rfl⟩
    obtain ⟨qu, qy, hqu, hqy, hle⟩ := hrel e he y hpat w hew
    have hcand : jsAdd (st.distances u) e.weight = .num (qu + w) := by
      rw [hqu, hew]; rfl
    rw [relaxEdge_eq, if_pos hinc, if_neg ?_]
    rw [← hy_def, hcand, hqy]
    simp only [jsLt, decide_eq_true_eq]
    intro hcontra
    linarith
  · exact relaxEdge_not_incident hinc

/-- Extracting an already-settled node relaxes nothing: the whole fold is the
identity. -/
theorem relaxAll_of_relaxed {g : Graph} {u : String} {st : LoopState}
    (hw : NonnegWeights g) (hrel : RelaxedFor g st u g.edges) :
    relaxAll g.edges u st = st := by
  suffices h : ∀ l : List Edge, (∀ e ∈ l, e ∈ g.edges) →
      l.foldl (relaxEdge u) st = st by
    exact h g.edges (fun e he => he)
  intro l
  induction l with
  | nil => intro _; rfl
  | cons e es ih =>
    intro hsub
    have h1 : relaxEdge u st e = st :=
      relaxEdge_of_relaxed hw (hsub e (List.mem_cons_self _ _)) hrel
    show (e :: es).foldl (relaxEdge u) st = st
    rw [List.foldl_cons, h1]
    exact ih (fun e' he' => hsub e' (List.mem_cons_of_mem _ he'))

theorem relaxEdge_pq_len (u : String) (st : LoopState) (e : Edge) :
    (relaxEdge u st e).pq.length ≤ st.pq.length + 1 := by
  rw [relaxEdge_eq]
  by_cases h1 : e.«from» = u ∨ e.«to» = u
  · rw [if_pos h1]
    by_cases h2 : jsLt (jsAdd (st.distances u) e.weight)
        (st.distances (if e.«from» = u then e.«to» else e.«from»)) = true
    · rw [if_pos h2]
      show (st.pq ++ [_]).length ≤ st.pq.length + 1
      simp
    · rw [if_neg h2]
      exact Nat.le_succ _
  · rw [if_neg h1]
    exact Nat.le_succ _

theorem relaxAll_pq_len (u : String) :
    ∀ (l : List Edge) (st : LoopState),
      (l.foldl (relaxEdge u) st).pq.length ≤ st.pq.length + l.length := by
  intro l
  induction l with
  | nil => intro st; simp
  | cons e es ih =>
    intro st
    calc ((e :: es).foldl (relaxEdge u) st).pq.length
        = (es.foldl (relaxEdge u) (relaxEdge u st e)).pq.length := by
          rw [List.foldl_cons]
      _ ≤ (relaxEdge u st e).pq.length + es.length := ih _
      _ ≤ st.pq.length + 1 + es.length := by
          have := relaxEdge_pq_len u st e
          omega
      _ = st.pq.length + (e :: es).length := by simp [List.length_cons]; omega

/-- Every walk is bounded below by the head key of the sorted frontier,
unless its endpoint is already settled with a distance below the walk's
weight. -/
theorem walk_lower_bound {g : Graph} {s : String} {S : List String}
    {st : LoopState} {e : PQEntry} {rest : List PQEntry}
    (hw : NonnegWeights g) (hinv : DInv g s st S)
    (hsort : sortPq st.pq = e :: rest) :
    ∀ (y : String) (c : ℚ), IsWalk g s y c →
      (y ∈ S ∧ ∃ q, st.distances y = some (.num q) ∧ q ≤ c) ∨
      keyVal e.distance ≤ c := by
  obtain ⟨hcore, hrel⟩ := hinv
  intro y c hwalk
  induction hwalk with
  | nil =>
    by_cases hs : s ∈ S
    · obtain ⟨q, hq, hmin⟩ := hcore.settled s hs
      exact .inl ⟨hs, q, hq, hmin 0 IsWalk.nil⟩
    · have hmem := hcore.pq_mem s 0 hs hcore.src_dist
      have hk := sortPq_head_min hsort _ hmem
      right
      simpa [keyVal] using hk
  | @snoc b y' c' w hwalk' hEB ih =>
    have hw0 : 0 ≤ w := edgeBetween_nonneg hw hEB
    rcases ih with ⟨hbS, qb, hqb, hqbc⟩ | hk
    · obtain ⟨ee, hee, heww, hpatx⟩ := hEB
      have hpat2 : (ee.«from» = b ∧ ee.«to» = y') ∨
          (ee.«to» = b ∧ ee.«from» = y') := by
        rcases hpatx with ⟨h1, h2⟩ | ⟨h1, h2⟩
        · exact .inl ⟨h1, h2⟩
        · exact .inr ⟨h2, h1⟩
      obtain ⟨qb', qy, hqb', hqy, hle⟩ := hrel b hbS ee hee y' hpat2 w heww
      have hbb : qb' = qb := by
        rw [hqb] at hqb'
        exact (by simpa using hqb' : qb = qb').symm
      by_cases hyS : y' ∈ S
      · obtain ⟨qy2, hqy2, hymin⟩ := hcore.settled y' hyS
        exact .inl ⟨hyS, qy2, hqy2, hymin _ (IsWalk.snoc hwalk' ⟨ee, hee, heww, hpatx⟩)⟩
      · have hmem := hcore.pq_mem y' qy hyS hqy
        have hk2 := sortPq_head_min hsort _ hmem
        right
        have hk3 : keyVal e.distance ≤ qy := by simpa [keyVal] using hk2
        have : qy ≤ qb + w := by rw [← hbb]; exact hle
        linarith
    · exact .inr (by linarith)

/-- The key fact of Dijkstra's algorithm: when an unsettled node is
extracted from the frontier, its tentative distance is already optimal. -/
theorem extract_min {g : Graph} {s : String} {S : List String}
    {st : LoopState} {e : PQEntry} {rest : List PQEntry}
    (hw : NonnegWeights g) (hinv : DInv g s st S)
    (hsort : sortPq st.pq = e :: rest) (hu : e.node ∉ S) :
    ∃ q : ℚ, st.distances e.node = some (.num q) ∧ e.distance = .num q ∧
      ∀ c : ℚ, IsWalk g s e.node c → q ≤ c := by
  obtain ⟨hcore, hrel⟩ := hinv
  have hemem : e ∈ st.pq := by
    have h1 : e ∈ sortPq st.pq := by rw [hsort]; exact List.mem_cons_self _ _
    exact (sortPq_perm st.pq).mem_iff.mp h1
  obtain ⟨k, q, hk, hq, hle⟩ := hcore.pq_key e hemem
  have hqmem := hcore.pq_mem e.node q hu hq
  have hmin := sortPq_head_min hsort _ hqmem
  have hkq : k ≤ q := by
    rw [hk] at hmin
    simpa [keyVal] using hmin
  have hqk : q = k := le_antisymm hle hkq
  refine ⟨q, hq, by rw [hk, hqk], ?_⟩
  intro c hwalk
  rcases walk_lower_bound hw ⟨hcore, hrel⟩ hsort e.node c hwalk with ⟨hS, -⟩ | hkc
  · exact absurd hS hu
  · rw [hk] at hkc
    simp only [keyVal] at hkc
    linarith

theorem rest_mem_pq {st : LoopState} {e : PQEntry} {rest : List PQEntry}
    (hsort : sortPq st.pq = e :: rest) {p : PQEntry} (hp : p ∈ rest) : p ∈ st.pq :=
  (sortPq_perm st.pq).mem_iff.mp (by rw [hsort]; exact List.mem_cons_of_mem _ hp)

theorem entry_mem_rest {st : LoopState} {e : PQEntry} {rest : List PQEntry}
    (hsort : sortPq st.pq = e :: rest) {p : PQEntry} (hp : p ∈ st.pq) (hne : p ≠ e) :
    p ∈ rest := by
  rcases mem_of_sortPq hsort hp with h | h
  · exact absurd h hne
  · exact h

theorem s_length_le {g : Graph} {s : String} {S : List String} (hnd : S.Nodup)
    (hsub : ∀ u ∈ S, u = s ∨ u ∈ nodeIds g) : S.length ≤ g.nodes.length + 1 := by
  have h1 : S.toFinset ⊆ insert s (nodeIds g).toFinset := by
    intro x hx
    rcases hsub x (List.mem_toFinset.mp hx) with rfl | h
    · exact Finset.mem_insert_self _ _
    · exact Finset.mem_insert_of_mem (List.mem_toFinset.mpr h)
  have h2 := Finset.card_le_card h1
  rw [List.toFinset_card_of_nodup hnd] at h2
  calc S.length ≤ (insert s (nodeIds g).toFinset).card := h2
    _ ≤ (nodeIds g).toFinset.card + 1 := Finset.card_insert_le _ _
    _ ≤ (nodeIds g).length + 1 := by
        have := (nodeIds g).toFinset_card_le
        omega
    _ = g.nodes.length + 1 := by simp [nodeIds]

/-- Popping a stale entry (an already settled node) keeps the invariant. -/
theorem dinv_shift_stale {g : Graph} {s : String} {S : List String}
    {st : LoopState} {e : PQEntry} {rest : List PQEntry} (hinv : DInv g s st S)
    (hsort : sortPq st.pq = e :: rest) (hu : e.node ∈ S) :
    DInv g s { st with pq := rest } S := by
  obtain ⟨hcore, hrel⟩ := hinv
  refine ⟨{ src_dist := hcore.src_dist, no_nan := hcore.no_nan,
            dist_def := hcore.dist_def, ub := hcore.ub,
            fin_prev := hcore.fin_prev,
            pq_key := ?_, pq_node := ?_, pq_mem := ?_,
            settled := hcore.settled, prev_spec := hcore.prev_spec,
            prev_idx := hcore.prev_idx, s_nodup := hcore.s_nodup,
            s_sub := hcore.s_sub }, hrel⟩
  · intro p hp
    exact hcore.pq_key p (rest_mem_pq hsort hp)
  · intro p hp
    exact hcore.pq_node p (rest_mem_pq hsort hp)
  · intro y q hyS hy
    have hold := hcore.pq_mem y q hyS hy
    refine entry_mem_rest hsort hold ?_
    intro hcontra
    have : e.node = y := by rw [← hcontra]
    exact hyS (this ▸ hu)

/-- Popping a fresh minimal entry: the invariant core holds with the popped
node appended to the settled list (its incident edges are relaxed next). -/
theorem dcore_extract {g : Graph} {s : String} {S : List String}
    {st : LoopState} {e : PQEntry} {rest : List PQEntry}
    (hw : NonnegWeights g) (hinv : DInv g s st S)
    (hsort : sortPq st.pq = e :: rest) (hu : e.node ∉ S) :
    DCore g s { st with pq := rest } (S ++ [e.node]) := by
  obtain ⟨q, hq, hkey, hmin⟩ := extract_min hw hinv hsort hu
  obtain ⟨hcore, hrel⟩ := hinv
  have hemem : e ∈ st.pq := by
    have h1 : e ∈ sortPq st.pq := by rw [hsort]; exact List.mem_cons_self _ _
    exact (sortPq_perm st.pq).mem_iff.mp h1
  refine { src_dist := hcore.src_dist, no_nan := hcore.no_nan,
           dist_def := hcore.dist_def, ub := hcore.ub,
           fin_prev := hcore.fin_prev,
           pq_key := ?_, pq_node := ?_, pq_mem := ?_, settled := ?_,
           prev_spec := ?_, prev_idx := ?_, s_nodup := ?_, s_sub := ?_ }
  · intro p hp
    exact hcore.pq_key p (rest_mem_pq hsort hp)
  · intro p hp
    exact hcore.pq_node p (rest_mem_pq hsort hp)
  · intro y qy hyS hy
    have hyS' : y ∉ S := fun h => hyS (List.mem_append_left _ h)
    have hyne : y ≠ e.node := fun h =>
      hyS (List.mem_append_right _ (List.mem_singleton.mpr h))
    have hold := hcore.pq_mem y qy hyS' hy
    refine entry_mem_rest hsort hold ?_
    intro hcontra
    exact hyne (by rw [← hcontra])
  · intro u' hu'
    rcases List.mem_append.mp hu' with h | h
    · exact hcore.settled u' h
    · rw [List.mem_singleton.mp h]
      exact ⟨q, hq, hmin⟩
  · intro y v hyv
    obtain ⟨hvS, rest'⟩ := hcore.prev_spec y v hyv
    exact ⟨List.mem_append_left _ hvS, rest'⟩
  · intro y v hyv hymem
    have hvS : v ∈ S := (hcore.prev_spec y v hyv).1
    have hvidx : (S ++ [e.node]).indexOf v = S.indexOf v :=
      List.indexOf_append_of_mem hvS
    rcases List.mem_append.mp hymem with h | h
    · have hyidx : (S ++ [e.node]).indexOf y = S.indexOf y :=
        List.indexOf_append_of_mem h
      rw [hvidx, hyidx]
      exact hcore.prev_idx y v hyv h
    · rw [List.mem_singleton.mp h, hvidx]
      rw [List.indexOf_append_of_not_mem hu]
      have h2 := List.indexOf_lt_length.mpr hvS
      have h3 : List.indexOf e.node [e.node] = 0 := List.indexOf_cons_self _ _
      omega
  · rw [List.nodup_append]
    exact ⟨hcore.s_nodup, List.nodup_singleton _, by
      intro a ha hb
      rw [List.mem_singleton] at hb
      exact hu (hb ▸ ha)⟩
  · intro u' hu'
    rcases List.mem_append.mp hu' with h | h
    · exact hcore.s_sub u' h
    · rw [List.mem_singleton.mp h]
      exact hcore.pq_node e hemem

/-- The invariant holds at loop entry with nothing settled. -/
theorem dinv_init (g : Graph) (s : String) : DInv g s (dijkstraInit g s) [] := by
  refine ⟨{ src_dist := ?_, no_nan := ?_, dist_def := ?_, ub := ?_,
            fin_prev := ?_, pq_key := ?_, pq_node := ?_, pq_mem := ?_,
            settled := ?_, prev_spec := ?_, prev_idx := ?_,
            s_nodup := List.nodup_nil, s_sub := ?_ },
    fun u hu => absurd hu (List.not_mem_nil u)⟩
  · show (if s = s then some (JNum.num 0)
      else if s ∈ nodeIds g then some JNum.inf else none) = some (.num 0)
    rw [if_pos rfl]
  · intro y
    show (if y = s then some (JNum.num 0)
      else if y ∈ nodeIds g then some JNum.inf else none) ≠ some .nan
    split
    · simp
    · split <;> simp
  · intro y hy
    show (if y = s then some (JNum.num 0)
      else if y ∈ nodeIds g then some JNum.inf else none).isSome = true
    split
    · rfl
    · simp [hy]
  · intro y q hy
    have hy' : (if y = s then some (JNum.num 0)
        else if y ∈ nodeIds g then some JNum.inf else none) = some (.num q) := hy
    split at hy'
    · next hys =>
      have h0 : (JNum.num 0) = .num q := by simpa using hy'
      have hq : q = 0 := by simpa using h0.symm
      subst hys hq
      exact IsWalk.nil
    · split at hy' <;> simp at hy'
  · intro y q hy hys
    have hy' : (if y = s then some (JNum.num 0)
        else if y ∈ nodeIds g then some JNum.inf else none) = some (.num q) := hy
    rw [if_neg hys] at hy'
    split at hy' <;> simp at hy'
  · intro p hp
    have hp' : p ∈ [(⟨s, .num 0⟩ : PQEntry)] := hp
    rw [List.mem_singleton] at hp'
    subst hp'
    refine ⟨0, 0, rfl, ?_, le_refl _⟩
    show (if s = s then some (JNum.num 0)
      else if s ∈ nodeIds g then some JNum.inf else none) = some (.num 0)
    rw [if_pos rfl]
  · intro p hp
    have hp' : p ∈ [(⟨s, .num 0⟩ : PQEntry)] := hp
    rw [List.mem_singleton] at hp'
    subst hp'
    exact .inl rfl
  · intro y q hyS hy
    have hy' : (if y = s then some (JNum.num 0)
        else if y ∈ nodeIds g then some JNum.inf else none) = some (.num q) := hy
    show (⟨y, .num q⟩ : PQEntry) ∈ [(⟨s, .num 0⟩ : PQEntry)]
    split at hy'
    · next hys =>
      have h0 : (JNum.num 0) = .num q := by simpa using hy'
      have hq : q = 0 := by simpa using h0.symm
      subst hys hq
      exact List.mem_singleton.mpr rfl
    · split at hy' <;> simp at hy'
  · intro u hu
    exact absurd hu (List.not_mem_nil u)
  · intro y v hyv
    exact absurd hyv (by simp [dijkstraInit])
  · intro y v hyv
    exact absurd hyv (by simp [dijkstraInit])
  · intro u hu
    exact absurd hu (List.not_mem_nil u)

/-- The invariant only constrains the frontier through membership, so it
transfers along permutations of the frontier. -/
theorem dinv_pq_perm {g : Graph} {s : String} {S : List String} {st : LoopState}
    {pq' : List PQEntry} (hinv : DInv g s st S) (hperm : List.Perm st.pq pq') :
    DInv g s ⟨st.distances, st.previous, pq'⟩ S := by
  obtain ⟨hcore, hrel⟩ := hinv
  refine ⟨{ src_dist := hcore.src_dist, no_nan := hcore.no_nan,
            dist_def := hcore.dist_def, ub := hcore.ub,
            fin_prev := hcore.fin_prev,
            pq_key := ?_, pq_node := ?_, pq_mem := ?_,
            settled := hcore.settled, prev_spec := hcore.prev_spec,
            prev_idx := hcore.prev_idx, s_nodup := hcore.s_nodup,
            s_sub := hcore.s_sub }, hrel⟩
  · intro p hp
    exact hcore.pq_key p (hperm.mem_iff.mpr hp)
  · intro p hp
    exact hcore.pq_node p (hperm.mem_iff.mpr hp)
  · intro y q hyS hy
    exact hperm.mem_iff.mp (hcore.pq_mem y q hyS hy)

/-- Main loop lemma: started with enough fuel and the invariant, the loop
exits with the invariant and either everything finite settled (frontier
exhausted) or the target's distance already optimal (early break). -/
theorem dijkstraLoop_post {g : Graph} {s t : String}
    (hval : ValidGraph g) (hw : NonnegWeights g) :
    ∀ (fuel : Nat) (st : LoopState) (S : List String),
      DInv g s st S → muMeasure g st S ≤ fuel →
      ∃ (S' : List String) (pq' : List PQEntry),
        DInv g s ⟨(dijkstraLoop g t fuel st).distances,
          (dijkstraLoop g t fuel st).previous, pq'⟩ S' ∧
        ((∀ (y : String) (q : ℚ),
            (dijkstraLoop g t fuel st).distances y = some (.num q) → y ∈ S') ∨
         (∃ q : ℚ, (dijkstraLoop g t fuel st).distances t = some (.num q) ∧
            ∀ c : ℚ, IsWalk g s t c → q ≤ c)) := by
  intro fuel
  induction fuel with
  | zero =>
    intro st S hinv hmu
    have hpq : st.pq = [] := by
      have h1 : st.pq.length = 0 := by
        unfold muMeasure at hmu
        omega
      exact List.length_eq_zero.mp h1
    refine ⟨S, st.pq, hinv, .inl ?_⟩
    intro y q hy
    by_contra hyS
    have hm := hinv.1.pq_mem y q hyS hy
    rw [hpq] at hm
    exact absurd hm (List.not_mem_nil _)
  | succ n ih =>
    intro st S hinv hmu
    rcases hsort : sortPq st.pq with - | ⟨e, rest⟩
    · have hpq : st.pq = [] := by
        have h1 := sortPq_length st.pq
        rw [hsort] at h1
        exact List.length_eq_zero.mp h1.symm
      rw [dijkstraLoop_empty_pq g t (n + 1) hpq]
      refine ⟨S, st.pq, hinv, .inl ?_⟩
      intro y q hy
      by_contra hyS
      have hm := hinv.1.pq_mem y q hyS hy
      rw [hpq] at hm
      exact absurd hm (List.not_mem_nil _)
    · have hlen : st.pq.length = rest.length + 1 := by
        have h1 := sortPq_length st.pq
        rw [hsort] at h1
        simpa using h1.symm
      by_cases he : e.node = t
      · rw [dijkstraLoop_break g t n hsort he]
        refine ⟨S, e :: rest, ?_, .inr ?_⟩
        · exact @dinv_pq_perm g s S st (e :: rest) hinv
            ((sortPq_perm st.pq).symm.trans (by rw [hsort]))
        · by_cases htS : e.node ∈ S
          · obtain ⟨q, hq, hmin⟩ := hinv.1.settled e.node htS
            refine ⟨q, ?_, ?_⟩
            · show st.distances t = some (.num q)
              rw [← he]; exact hq
            · rw [← he]; exact hmin
          · obtain ⟨q, hq, -, hmin⟩ := extract_min hw hinv hsort htS
            refine ⟨q, ?_, ?_⟩
            · show st.distances t = some (.num q)
              rw [← he]; exact hq
            · rw [← he]; exact hmin
      · rw [dijkstraLoop_step g t n hsort he]
        by_cases huS : e.node ∈ S
        · have hinv2 : DInv g s { st with pq := rest } S :=
            dinv_shift_stale hinv hsort huS
          have hrelu : RelaxedFor g { st with pq := rest } e.node g.edges :=
            hinv.2 e.node huS
          rw [relaxAll_of_relaxed hw hrelu]
          refine ih { st with pq := rest } S hinv2 ?_
          show rest.length + (g.nodes.length + 1 - S.length) * (g.edges.length + 1) ≤ n
          unfold muMeasure at hmu
          generalize (g.nodes.length + 1 - S.length) * (g.edges.length + 1) = B at hmu ⊢
          omega
        · have hcore2 := dcore_extract hw hinv hsort huS
          have huS2 : e.node ∈ S ++ [e.node] :=
            List.mem_append_right _ (List.mem_singleton.mpr rfl)
          have hothers : ∀ u' ∈ S ++ [e.node], u' ≠ e.node →
              RelaxedFor g { st with pq := rest } u' g.edges := by
            intro u' hu' hne
            rcases List.mem_append.mp hu' with h | h
            · exact hinv.2 u' h
            · exact absurd (List.mem_singleton.mp h) hne
          have hinv3 : DInv g s (relaxAll g.edges e.node { st with pq := rest })
              (S ++ [e.node]) :=
            relaxAll_establishes hval hw huS2 hcore2 hothers
          refine ih _ (S ++ [e.node]) hinv3 ?_
          have hplen : (relaxAll g.edges e.node { st with pq := rest }).pq.length ≤
              rest.length + g.edges.length := by
            have h1 := relaxAll_pq_len e.node g.edges { st with pq := rest }
            simpa using h1
          have hSlen : (S ++ [e.node]).length ≤ g.nodes.length + 1 :=
            s_length_le hcore2.s_nodup hcore2.s_sub
          rw [List.length_append, List.length_singleton] at hSlen
          unfold muMeasure
          rw [List.length_append, List.length_singleton]
          unfold muMeasure at hmu
          have hexp : g.nodes.length + 1 - S.length =
              (g.nodes.length + 1 - (S.length + 1)) + 1 := by omega
          rw [hexp] at hmu
          have hdist : ((g.nodes.length + 1 - (S.length + 1)) + 1) *
              (g.edges.length + 1) =
              (g.nodes.length + 1 - (S.length + 1)) * (g.edges.length + 1) +
                (g.edges.length + 1) := by ring
          rw [hdist] at hmu
          generalize (g.nodes.length + 1 - (S.length + 1)) * (g.edges.length + 1) = B
            at hmu ⊢
          omega

theorem walkPath_succ (p : String → Option String) (fuel : Nat) (current : String) :
    walkPath p (fuel + 1) current =
      if current = "" then []
      else
        match p current with
        | none => [current]
        | some v => walkPath p fuel v ++ [current] := rfl

theorem chainRank_pos (S : List String) (y : String) : 1 ≤ chainRank S y := by
  unfold chainRank
  split <;> omega

theorem chainRank_le (S : List String) (y : String) :
    chainRank S y ≤ S.length + 1 := by
  unfold chainRank
  split
  · next h =>
    have := List.indexOf_lt_length.mpr h
    omega
  · omega

theorem chainRank_lt {S : List String} {y v : String} (hvS : v ∈ S)
    (hidx : y ∈ S → S.indexOf v < S.indexOf y) :
    chainRank S v < chainRank S y := by
  unfold chainRank
  rw [if_pos hvS]
  split
  · next hyS =>
    have := hidx hyS
    omega
  · have := List.indexOf_lt_length.mpr hvS
    omega

/-- Construction of the predecessor chain: from any node with a finite
tentative distance, following `previous` yields a duplicate-free walk from
the source whose weights sum to that distance. -/
theorem chain_exists {g : Graph} {s : String} {S : List String} {st : LoopState}
    (hval : ValidGraph g) (hinv : DInv g s st S) (hs : s ≠ "") :
    ∀ (n : Nat) (y : String) (qy : ℚ), chainRank S y ≤ n →
      st.distances y = some (.num qy) → y ≠ "" →
      ∃ l : List String, PrevChainL st.previous y l ∧ l.head? = some s ∧
        l.getLast? = some y ∧ ChainW g l qy ∧ l.Nodup ∧
        l.length ≤ chainRank S y ∧
        (∀ z ∈ l, z ≠ "") ∧ (∀ z ∈ l, chainRank S z ≤ chainRank S y) := by
  intro n
  induction n with
  | zero =>
    intro y qy hrank
    have := chainRank_pos S y
    omega
  | succ n ih =>
    intro y qy hrank hdist hyne
    rcases hprev : st.previous y with - | v
    · have hys : y = s := by
        by_contra hys
        exact (hinv.1.fin_prev y qy hdist hys) hprev
      subst hys
      have hq0 : qy = 0 := by
        rw [hinv.1.src_dist] at hdist
        simpa using hdist.symm
      subst hq0
      exact ⟨[y], PrevChainL.base hprev, rfl, rfl, ChainW.single y,
        List.nodup_singleton y, chainRank_pos S y, by simpa using hyne,
        by intro z hz; rw [List.mem_singleton.mp hz]⟩
    · obtain ⟨hvS, qv, w, qy', h1, h2, hEB, h4⟩ := hinv.1.prev_spec y v hprev
      have hqy : qy' = qy := by
        rw [hdist] at h2
        exact (by simpa using h2 : qy = qy').symm
      have hvne : v ≠ "" := by
        rcases hinv.1.s_sub v hvS with rfl | hmem
        · exact hs
        · obtain ⟨nd, hnd, hid⟩ := List.mem_map.mp hmem
          exact hid ▸ hval.1 nd hnd
      have hrankv : chainRank S v < chainRank S y :=
        chainRank_lt hvS (fun hyS => hinv.1.prev_idx y v hprev hyS)
      obtain ⟨l, hch, hhead, hlast, hW, hnd, hlen, hne, hrankle⟩ :=
        ih v qv (by omega) h1 hvne
      have hW2 : ChainW g (l ++ [y]) qy := by
        have := chainW_snoc hW hlast hEB
        rw [← h4, hqy] at this
        exact this
      refine ⟨l ++ [y], PrevChainL.step hprev hch, ?_,
        List.getLast?_concat _, hW2, ?_, ?_, ?_, ?_⟩
      · rw [List.head?_append, hhead]
        rfl
      · rw [List.nodup_append]
        refine ⟨hnd, List.nodup_singleton y, ?_⟩
        intro z hz hz2
        rw [List.mem_singleton] at hz2
        subst hz2
        have := hrankle z hz
        omega
      · rw [List.length_append, List.length_singleton]
        omega
      · intro z hz
        rcases List.mem_append.mp hz with h | h
        · exact hne z h
        · rw [List.mem_singleton.mp h]
          exact hyne
      · intro z hz
        rcases List.mem_append.mp hz with h | h
        · have := hrankle z h
          omega
        · rw [List.mem_singleton.mp h]

/-- The reconstruction walk computes exactly the predecessor chain, given
enough fuel and non-empty ids along the chain. -/
theorem walkPath_of_chain {p : String → Option String} :
    ∀ {y : String} {l : List String}, PrevChainL p y l → (∀ z ∈ l, z ≠ "") →
      ∀ fuel : Nat, l.length ≤ fuel → walkPath p fuel y = l := by
  intro y l hch
  induction hch with
  | @base y hpy =>
    intro hne fuel hlen
    cases fuel with
    | zero => simp at hlen
    | succ n =>
      rw [walkPath_succ, if_neg (hne y (List.mem_singleton.mpr rfl)), hpy]
  | @step y v l hpy hch ih =>
    intro hne fuel hlen
    cases fuel with
    | zero =>
      rw [List.length_append] at hlen
      simp at hlen
    | succ n =>
      have hyne : y ≠ "" :=
        hne y (List.mem_append_right _ (List.mem_singleton.mpr rfl))
      rw [walkPath_succ, if_neg hyne, hpy]
      show walkPath p n v ++ [y] = l ++ [y]
      rw [ih (fun z hz => hne z (List.mem_append_left _ hz)) n ?_]
      rw [List.length_append, List.length_singleton] at hlen
      omega

theorem dijkstra_path_eq (g : Graph) (s t : String) :
    (dijkstra g s t).path =
      walkPath (dijkstraLoop g t (loopFuel g) (dijkstraInit g s)).previous
        (walkFuel g) t := rfl

theorem dijkstra_distance_eq (g : Graph) (s t : String) :
    (dijkstra g s t).distance =
      (dijkstraLoop g t (loopFuel g) (dijkstraInit g s)).distances t := rfl

/-- Full correctness of `dijkstra` over valid snapshots with non-negative
weights: for a reachable target the returned path is a duplicate-free walk
from source to target whose weights sum to the reported distance, which is
minimal among all walks; for an unreachable target the reported distance is
non-finite and the reconstructed path does not start at the source. -/
theorem dijkstra_main {g : Graph} {s t : String}
    (hval : ValidGraph g) (hw : NonnegWeights g) (hs : s ≠ "") :
    (Reachable g s t →
      ∃ q : ℚ, (dijkstra g s t).distance = some (.num q) ∧
        (dijkstra g s t).path.head? = some s ∧
        (dijkstra g s t).path.getLast? = some t ∧
        (dijkstra g s t).path.Nodup ∧
        ChainW g (dijkstra g s t).path q ∧
        (∀ c : ℚ, IsWalk g s t c → q ≤ c)) ∧
    (¬Reachable g s t →
      Unreachable (dijkstra g s t).distance ∧
      (dijkstra g s t).path.head? ≠ some s) := by
  have hmu : muMeasure g (dijkstraInit g s) [] ≤ loopFuel g := by
    unfold muMeasure loopFuel dijkstraInit
    simp only [List.length_singleton, List.length_nil, Nat.sub_zero]
    generalize (g.nodes.length + 1) * (g.edges.length + 1) = B
    omega
  obtain ⟨S', pq', hinvF, hdisj⟩ :=
    dijkstraLoop_post hval hw (loopFuel g) (dijkstraInit g s) [] (dinv_init g s) hmu
  constructor
  · rintro ⟨c0, hwalk0⟩
    have hfin : ∃ q : ℚ,
        (dijkstraLoop g t (loopFuel g) (dijkstraInit g s)).distances t =
          some (.num q) ∧ ∀ c : ℚ, IsWalk g s t c → q ≤ c := by
      rcases hdisj with hall | hopt
      · have hsettle : ∀ (y : String) (c : ℚ), IsWalk g s y c →
            y ∈ S' ∧ ∃ q : ℚ,
              (dijkstraLoop g t (loopFuel g) (dijkstraInit g s)).distances y =
                some (.num q) ∧ q ≤ c := by
          intro y c hwalk
          induction hwalk with
          | nil =>
            have h0 := hinvF.1.src_dist
            exact ⟨hall s 0 h0, 0, h0, le_refl 0⟩
          | @snoc b y' c' w hw' hEB ihw =>
            obtain ⟨hbS, qb, hqb, hqbc⟩ := ihw
            have hw0 : 0 ≤ w := edgeBetween_nonneg hw hEB
            obtain ⟨ee, hee, heww, hpatx⟩ := hEB
            have hpat2 : (ee.«from» = b ∧ ee.«to» = y') ∨
                (ee.«to» = b ∧ ee.«from» = y') := by
              rcases hpatx with ⟨ha, hb⟩ | ⟨ha, hb⟩
              · exact .inl ⟨ha, hb⟩
              · exact .inr ⟨hb, ha⟩
            obtain ⟨qb', qy, hqb', hqy, hle⟩ := hinvF.2 b hbS ee hee y' hpat2 w heww
            have hbb : qb' = qb := by
              rw [hqb] at hqb'
              exact (by simpa using hqb' : qb = qb').symm
            refine ⟨hall y' qy hqy, qy, hqy, ?_⟩
            rw [hbb] at hle
            linarith
        obtain ⟨htS, -⟩ := hsettle t c0 hwalk0
        obtain ⟨q', hq', hmin⟩ := hinvF.1.settled t htS
        exact ⟨q', hq', hmin⟩
      · exact hopt
    obtain ⟨q, hq, hmin⟩ := hfin
    have htne : t ≠ "" := by
      intro h
      have hwt := hinvF.1.ub t q hq
      rcases isWalk_end_mem hval hwt with h1 | h1
      · exact hs (h ▸ h1.symm ▸ rfl : s = "")
      · rw [h] at h1
        obtain ⟨nd, hnd, hid⟩ := List.mem_map.mp h1
        exact hval.1 nd hnd hid
    obtain ⟨l, hch, hhead, hlast, hW, hnd, hlen, hallne, -⟩ :=
      chain_exists hval hinvF hs (chainRank S' t) t q (le_refl _) hq htne
    have hlen2 : l.length ≤ walkFuel g := by
      have h1 := chainRank_le S' t
      have h2 : S'.length ≤ g.nodes.length + 1 :=
        s_length_le hinvF.1.s_nodup hinvF.1.s_sub
      unfold walkFuel
      omega
    have hwp : walkPath
        (dijkstraLoop g t (loopFuel g) (dijkstraInit g s)).previous
        (walkFuel g) t = l :=
      walkPath_of_chain hch hallne _ hlen2
    refine ⟨q, hq, ?_, ?_, ?_, ?_, hmin⟩
    · rw [dijkstra_path_eq, hwp]; exact hhead
    · rw [dijkstra_path_eq, hwp]; exact hlast
    · rw [dijkstra_path_eq, hwp]; exact hnd
    · rw [dijkstra_path_eq, hwp]; exact hW
  · intro hnr
    have hnofin : ∀ q : ℚ,
        (dijkstraLoop g t (loopFuel g) (dijkstraInit g s)).distances t ≠
          some (.num q) := by
      intro q hq
      exact hnr ⟨q, hinvF.1.ub t q hq⟩
    constructor
    · rw [dijkstra_distance_eq]
      rcases hd : (dijkstraLoop g t (loopFuel g) (dijkstraInit g s)).distances t
        with - | d
      · exact .inr rfl
      · cases d with
        | num q => exact absurd hd (hnofin q)
        | inf => exact .inl rfl
        | nan => exact absurd hd (hinvF.1.no_nan t)
    · have hts : t ≠ s := by
        intro h
        exact hnr ⟨0, h ▸ IsWalk.nil⟩
      have hprevt :
          (dijkstraLoop g t (loopFuel g) (dijkstraInit g s)).previous t = none := by
        rcases hp : (dijkstraLoop g t (loopFuel g) (dijkstraInit g s)).previous t
          with - | v
        · rfl
        · obtain ⟨-, qv, w, qy, -, h2, -, -⟩ := hinvF.1.prev_spec t v hp
          exact absurd h2 (hnofin qy)
      rw [dijkstra_path_eq]
      by_cases hte : t = ""
      · subst hte
        show (walkPath _ (g.nodes.length + 2 + 1) "").head? ≠ some s
        rw [walkPath_succ, if_pos rfl]
        simp
      · have hwp : walkPath
            (dijkstraLoop g t (loopFuel g) (dijkstraInit g s)).previous
            (walkFuel g) t = [t] := by
          show walkPath _ (g.nodes.length + 2 + 1) t = [t]
          rw [walkPath_succ, if_neg hte, hprevt]
        rw [hwp]
        intro h
        exact hts (by simpa using h)

/-- The unreachable half of the correctness argument, with no assumption on
the source id. -/
theorem dijkstra_unreachable {g : Graph} {s t : String}
    (hval : ValidGraph g) (hw : NonnegWeights g) (hnr : ¬Reachable g s t) :
    Unreachable (dijkstra g s t).distance ∧
    (dijkstra g s t).path.head? ≠ some s := by
  have hmu : muMeasure g (dijkstraInit g s) [] ≤ loopFuel g := by
    unfold muMeasure loopFuel dijkstraInit
    simp only [List.length_singleton, List.length_nil, Nat.sub_zero]
    generalize (g.nodes.length + 1) * (g.edges.length + 1) = B
    omega
  obtain ⟨S', pq', hinvF, hdisj⟩ :=
    dijkstraLoop_post hval hw (loopFuel g) (dijkstraInit g s) [] (dinv_init g s) hmu
  have hnofin : ∀ q : ℚ,
      (dijkstraLoop g t (loopFuel g) (dijkstraInit g s)).distances t ≠
        some (.num q) := by
    intro q hq
    exact hnr ⟨q, hinvF.1.ub t q hq⟩
  constructor
  · rw [dijkstra_distance_eq]
    rcases hd : (dijkstraLoop g t (loopFuel g) (dijkstraInit g s)).distances t
      with - | d
    · exact .inr rfl
    · cases d with
      | num q => exact absurd hd (hnofin q)
      | inf => exact .inl rfl
      | nan => exact absurd hd (hinvF.1.no_nan t)
  · have hts : t ≠ s := by
      intro h
      exact hnr ⟨0, h ▸ IsWalk.nil⟩
    have hprevt :
        (dijkstraLoop g t (loopFuel g) (dijkstraInit g s)).previous t = none := by
      rcases hp : (dijkstraLoop g t (loopFuel g) (dijkstraInit g s)).previous t
        with - | v
      · rfl
      · obtain ⟨-, qv, w, qy, -, h2, -, -⟩ := hinvF.1.prev_spec t v hp
        exact absurd h2 (hnofin qy)
    rw [dijkstra_path_eq]
    by_cases hte : t = ""
    · subst hte
      show (walkPath _ (g.nodes.length + 2 + 1) "").head? ≠ some s
      rw [walkPath_succ, if_pos rfl]
      simp
    · have hwp : walkPath
          (dijkstraLoop g t (loopFuel g) (dijkstraInit g s)).previous
          (walkFuel g) t = [t] := by
        show walkPath _ (g.nodes.length + 2 + 1) t = [t]
        rw [walkPath_succ, if_neg hte, hprevt]
      rw [hwp]
      intro h
      exact hts (by simpa using h)

/-- With a valid snapshot, a target that is neither the source nor a node
cannot be reached by any walk. -/
theorem not_reachable_of_absent {g : Graph} {s t : String} (hval : ValidGraph g)
    (ht : t ∉ nodeIds g) (hts : t ≠ s) : ¬Reachable g s t := by
  rintro ⟨c, hwalk⟩
  rcases isWalk_end_mem hval hwalk with h | h
  · exact hts h
  · exact ht h

/-- C1 (confirmed).  Over a valid snapshot with non-negative weights and a
reachable target, `dijkstra` returns a duplicate-free path from source to
target whose edge weights sum to the reported cost, and that cost is
minimal among all undirected walks (hence among all paths) between the two;
on the spec's three-node example the result is exactly `([A, B, C], 2)`. -/
theorem spec_C1 (g : Graph) (s t : String) (hval : ValidGraph g)
    (hw : NonnegWeights g) (hs : s ≠ "") (hr : Reachable g s t) :
    (∃ q : ℚ, (dijkstra g s t).distance = some (.num q) ∧
      (dijkstra g s t).path.head? = some s ∧
      (dijkstra g s t).path.getLast? = some t ∧
      (dijkstra g s t).path.Nodup ∧
      ChainW g (dijkstra g s t).path q ∧
      (∀ c : ℚ, IsWalk g s t c → q ≤ c)) ∧
    dijkstra exampleGraph "A" "C" = ⟨["A", "B", "C"], some (.num 2)⟩ :=
  ⟨(dijkstra_main hval hw hs).1 hr, by decide⟩

/-- C1 witness: the example graph satisfies all hypotheses, with the direct
edge `A-C` as a witness walk. -/
theorem spec_C1_witness :
    (∃ q : ℚ, (dijkstra exampleGraph "A" "C").distance = some (.num q) ∧
      (dijkstra exampleGraph "A" "C").path.head? = some "A" ∧
      (dijkstra exampleGraph "A" "C").path.getLast? = some "C" ∧
      (dijkstra exampleGraph "A" "C").path.Nodup ∧
      ChainW exampleGraph (dijkstra exampleGraph "A" "C").path q ∧
      (∀ c : ℚ, IsWalk exampleGraph "A" "C" c → q ≤ c)) ∧
    dijkstra exampleGraph "A" "C" = ⟨["A", "B", "C"], some (.num 2)⟩ :=
  spec_C1 exampleGraph "A" "C" (by decide) (by decide) (by decide)
    ⟨0 + 5, IsWalk.snoc IsWalk.nil
      ⟨⟨"A", "C", .num 5⟩, by decide, rfl, .inl ⟨rfl, rfl⟩⟩⟩

/-- C4 (confirmed): for every reachable query over a valid snapshot with
non-negative weights, the reported total cost equals the sum of the edge
weights joining consecutive pairs of the returned path. -/
theorem spec_C4 (g : Graph) (s t : String) (hval : ValidGraph g)
    (hw : NonnegWeights g) (hs : s ≠ "") (hr : Reachable g s t) :
    ∃ q : ℚ, ChainW g (dijkstra g s t).path q ∧
      (dijkstra g s t).distance = some (.num q) := by
  obtain ⟨q, h1, -, -, -, h5, -⟩ := (dijkstra_main hval hw hs).1 hr
  exact ⟨q, h5, h1⟩

/-- C4 witness. -/
theorem spec_C4_witness :
    ∃ q : ℚ, ChainW exampleGraph (dijkstra exampleGraph "A" "C").path q ∧
      (dijkstra exampleGraph "A" "C").distance = some (.num q) :=
  spec_C4 exampleGraph "A" "C" (by decide) (by decide) (by decide)
    ⟨0 + 5, IsWalk.snoc IsWalk.nil
      ⟨⟨"A", "C", .num 5⟩, by decide, rfl, .inl ⟨rfl, rfl⟩⟩⟩

/-- C7 (confirmed): for every unreachable query over a valid snapshot with
non-negative weights, the reported cost is non-finite (never any
`JNum.num`, in particular never 0) and the predecessor walk from the target
does not start at the source; the spec's one-node example follows. -/
theorem spec_C7 (g : Graph) (s t : String) (hval : ValidGraph g)
    (hw : NonnegWeights g) (hnr : ¬Reachable g s t) :
    (Unreachable (dijkstra g s t).distance ∧
      (∀ q : ℚ, (dijkstra g s t).distance ≠ some (.num q)) ∧
      (dijkstra g s t).path.head? ≠ some s) ∧
    dijkstra ⟨[⟨"A", "A"⟩], []⟩ "A" "B" = ⟨["B"], none⟩ := by
  obtain ⟨h1, h2⟩ := dijkstra_unreachable hval hw hnr
  refine ⟨⟨h1, ?_, h2⟩, by decide⟩
  intro q hq
  rcases h1 with h | h <;> rw [h] at hq <;> cases hq

/-- C7 witness: the one-node graph with an absent target. -/
theorem spec_C7_witness :
    (Unreachable (dijkstra ⟨[⟨"A", "A"⟩], []⟩ "A" "B").distance ∧
      (∀ q : ℚ, (dijkstra ⟨[⟨"A", "A"⟩], []⟩ "A" "B").distance ≠ some (.num q)) ∧
      (dijkstra ⟨[⟨"A", "A"⟩], []⟩ "A" "B").path.head? ≠ some "A") ∧
    dijkstra ⟨[⟨"A", "A"⟩], []⟩ "A" "B" = ⟨["B"], none⟩ :=
  spec_C7 ⟨[⟨"A", "A"⟩], []⟩ "A" "B" (by decide) (by decide)
    (not_reachable_of_absent (by decide) (by decide) (by decide))
